import Mathlib

/-!
Verification of the spaceview disk-usage analyzer (Rust, src/src-tauri/src).

Shallow embedding conventions:
* machine integers are `Nat`, with `% 2^w` made explicit where overflow matters
  (the SHA-256 word arithmetic below);
* file contents are `List Nat` (one `Nat` per byte, values < 256 at creation);
* the filesystem seen by the hashers is an oracle `String → Option (List Nat)`
  (`none` models an I/O error, which the Rust code maps to "no hash");
* fallible Rust functions returning `Option`/`Result` become `Option`/`Except`.
-/

set_option maxRecDepth 4096

/-! ## SHA-256 (the `sha2` crate's digest, modelled executably over byte lists) -/

namespace SHA256

/-- 2^32, the modulus of the 32-bit word arithmetic. -/
def M32 : Nat := 4294967296

/-- Rotate a 32-bit word right by `n`. -/
def rotr (n x : Nat) : Nat := ((x >>> n) ||| (x <<< (32 - n))) % M32

def shr (n x : Nat) : Nat := x >>> n

def bigSigma0 (x : Nat) : Nat := rotr 2 x ^^^ rotr 13 x ^^^ rotr 22 x

def bigSigma1 (x : Nat) : Nat := rotr 6 x ^^^ rotr 11 x ^^^ rotr 25 x

def smallSigma0 (x : Nat) : Nat := rotr 7 x ^^^ rotr 18 x ^^^ shr 3 x

def smallSigma1 (x : Nat) : Nat := rotr 17 x ^^^ rotr 19 x ^^^ shr 10 x

def ch (x y z : Nat) : Nat := (x &&& y) ^^^ ((x ^^^ 4294967295) &&& z)

def maj (x y z : Nat) : Nat := (x &&& y) ^^^ (x &&& z) ^^^ (y &&& z)

/-- The 64 SHA-256 round constants. -/
def K : List Nat :=
  [1116352408, 1899447441, 3049323471, 3921009573, 961987163, 1508970993, 2453635748, 2870763221,
   3624381080, 310598401, 607225278, 1426881987, 1925078388, 2162078206, 2614888103, 3248222580,
   3835390401, 4022224774, 264347078, 604807628, 770255983, 1249150122, 1555081692, 1996064986,
   2554220882, 2821834349, 2952996808, 3210313671, 3336571891, 3584528711, 113926993, 338241895,
   666307205, 773529912, 1294757372, 1396182291, 1695183700, 1986661051, 2177026350, 2456956037,
   2730485921, 2820302411, 3259730800, 3345764771, 3516065817, 3600352804, 4094571909, 275423344,
   430227734, 506948616, 659060556, 883997877, 958139571, 1322822218, 1537002063, 1747873779,
   1955562222, 2024104815, 2227730452, 2361852424, 2428436474, 2756734187, 3204031479, 3329325298]

/-- Big-endian byte encoding of `v` on `n` bytes. -/
def beBytes (n v : Nat) : List Nat :=
  (List.range n).map (fun i => v / 256 ^ (n - 1 - i) % 256)

/-- SHA-256 padding: append 0x80, zero bytes, and the 64-bit big-endian bit length. -/
def pad (msg : List Nat) : List Nat :=
  msg ++ [0x80] ++ List.replicate ((119 - msg.length % 64) % 64) 0 ++ beBytes 8 (8 * msg.length)

/-- Parse a byte list into big-endian 32-bit words. -/
def toWords : List Nat → List Nat
  | a :: b :: c :: d :: rest => (((a * 256 + b) * 256 + c) * 256 + d) :: toWords rest
  | _ => []

/-- One message-schedule extension step: append W[n] computed from W[n-2], W[n-7], W[n-15], W[n-16]. -/
def schedStep (w : List Nat) : List Nat :=
  let n := w.length
  w ++ [(smallSigma1 (w.getD (n - 2) 0) + w.getD (n - 7) 0 +
         smallSigma0 (w.getD (n - 15) 0) + w.getD (n - 16) 0) % M32]

/-- Extend the 16 message words to the 64 schedule words. -/
def schedule (w16 : List Nat) : List Nat := schedStep^[48] w16

/-- The 8-word working state (a..h) of the compression function. -/
structure Hash8 where
  a : Nat
  b : Nat
  c : Nat
  d : Nat
  e : Nat
  f : Nat
  g : Nat
  h : Nat

def initH : Hash8 :=
  ⟨1779033703, 3144134277, 1013904242, 2773480762, 1359893119, 2600822924, 528734635, 1541459225⟩

def compressRound (s : Hash8) (k w : Nat) : Hash8 :=
  let t1 := (s.h + bigSigma1 s.e + ch s.e s.f s.g + k + w) % M32
  let t2 := (bigSigma0 s.a + maj s.a s.b s.c) % M32
  ⟨(t1 + t2) % M32, s.a, s.b, s.c, (s.d + t1) % M32, s.e, s.f, s.g⟩

def compressBlock (h : Hash8) (block : List Nat) : Hash8 :=
  let ws := schedule (toWords block)
  let s := (K.zip ws).foldl (fun s kw => compressRound s kw.1 kw.2) h
  ⟨(h.a + s.a) % M32, (h.b + s.b) % M32, (h.c + s.c) % M32, (h.d + s.d) % M32,
   (h.e + s.e) % M32, (h.f + s.f) % M32, (h.g + s.g) % M32, (h.h + s.h) % M32⟩

/-- Split a byte list into 64-byte blocks (fuel-structured so that the kernel
can evaluate it; the fuel `l.length` always suffices since each step consumes
at least one byte). -/
def chunksAux : Nat → List Nat → List (List Nat)
  | 0, _ => []
  | _, [] => []
  | fuel + 1, l => l.take 64 :: chunksAux fuel (l.drop 64)

def chunks (l : List Nat) : List (List Nat) := chunksAux l.length l

/-- The SHA-256 digest of a byte list, as 32 bytes. -/
def sha256 (msg : List Nat) : List Nat :=
  let f := (chunks (pad msg)).foldl compressBlock initH
  beBytes 4 f.a ++ beBytes 4 f.b ++ beBytes 4 f.c ++ beBytes 4 f.d ++
  beBytes 4 f.e ++ beBytes 4 f.f ++ beBytes 4 f.g ++ beBytes 4 f.h

end SHA256

/-! ## Lowercase hexadecimal rendering (Rust's `format!` with the `x` formatter
on a digest prints each byte as two lowercase hex digits). -/

/-- The lowercase hex digit for `n < 16`. -/
def hexDigit (n : Nat) : Char :=
  if n < 10 then Char.ofNat (48 + n) else Char.ofNat (87 + n)

def byteToHex (b : Nat) : List Char := [hexDigit (b / 16 % 16), hexDigit (b % 16)]

/-- Render a byte list as a lowercase hexadecimal string. -/
def hexString (bytes : List Nat) : String := ⟨bytes.flatMap byteToHex⟩

def isLowerHexChar (c : Char) : Bool :=
  (48 ≤ c.toNat && c.toNat ≤ 57) || (97 ≤ c.toNat && c.toNat ≤ 102)

def isLowerHexStr (s : String) : Bool := s.toList.all isLowerHexChar

/-- Little-endian byte encoding of `v` on `n` bytes (Rust `u64::to_le_bytes` with `n = 8`). -/
def leBytes (n v : Nat) : List Nat :=
  (List.range n).map (fun i => v / 256 ^ i % 256)

/-! ## duplicates.rs — the duplicate finder's two-tier hasher and grouping -/

namespace Duplicates

/-- duplicates.rs line 21: 64 KiB sample size. -/
def PARTIAL_HASH_SIZE : Nat := 64 * 1024

/-- duplicates.rs `compute_full_hash`: digest of the whole content, lowercase hex.
The streaming 1 MiB read loop reads exactly the full content; `none` would model
an I/O error, which cannot occur once the content is given. -/
def compute_full_hash (content : List Nat) : Option String :=
  some (hexString (SHA256.sha256 content))

/-- duplicates.rs `compute_partial_hash`: full hash when `size ≤ 2·S`; otherwise
digest of first `S` bytes ‖ last `S` bytes ‖ `size.to_le_bytes()`.  The
`read_exact`/`seek(End(-S))` pair fails when the file is shorter than `S`. -/
def compute_partial_hash (content : List Nat) (size : Nat) : Option String :=
  if size ≤ PARTIAL_HASH_SIZE * 2 then
    compute_full_hash content
  else if content.length < PARTIAL_HASH_SIZE then none
  else
    some (hexString (SHA256.sha256
      (content.take PARTIAL_HASH_SIZE ++
       content.drop (content.length - PARTIAL_HASH_SIZE) ++
       leBytes 8 size)))

/-- `compute_full_hash` reading the file at `path` through the filesystem oracle. -/
def compute_full_hash_fs (fs : String → Option (List Nat)) (path : String) : Option String :=
  (fs path).bind fun c => compute_full_hash c

end Duplicates

/-! ## compare.rs — the comparator's identical two-tier hasher -/

namespace Compare

/-- compare.rs line 22: 64 KiB sample size. -/
def HASH_SAMPLE_SIZE : Nat := 64 * 1024

/-- compare.rs `compute_full_hash` (same streaming digest as the duplicate finder). -/
def compute_full_hash (content : List Nat) : Option String :=
  some (hexString (SHA256.sha256 content))

/-- compare.rs `compute_partial_hash` (lines 474-495). -/
def compute_partial_hash (content : List Nat) (size : Nat) : Option String :=
  if size ≤ HASH_SAMPLE_SIZE * 2 then
    compute_full_hash content
  else if content.length < HASH_SAMPLE_SIZE then none
  else
    some (hexString (SHA256.sha256
      (content.take HASH_SAMPLE_SIZE ++
       content.drop (content.length - HASH_SAMPLE_SIZE) ++
       leBytes 8 size)))

end Compare

/-! ## duplicates.rs `group_duplicates_for_hashes` (lines 330-385)

`HashMap::entry(h).or_default().push(path)` grouping is modelled by an
association list keyed by hash, preserving first-insertion order of keys
(the Rust `HashMap` iteration order is unspecified; the claims proved below
are order-insensitive). -/

namespace Duplicates

/-- Append `p` to the group keyed `h`, creating the group if absent. -/
def addToGroup : List (String × List String) → String → String → List (String × List String)
  | [], h, p => [(h, [p])]
  | (k, ps) :: rest, h, p =>
      if k = h then (k, ps ++ [p]) :: rest else (k, ps) :: addToGroup rest h p

/-- Group the `(path, optional hash)` pairs by hash; paths whose hash is `None`
(I/O error) are dropped, as in the source's `if let Some(h) = hash`. -/
def groupByHash (hashes : List (String × Option String)) : List (String × List String) :=
  hashes.foldl
    (fun acc ph =>
      match ph.2 with
      | some h => addToGroup acc h ph.1
      | none => acc) []

structure HashGroupResult where
  groups : List (String × List String)
  full_hash_files : Nat
  partial_collision_groups : Nat

/-- One step of the `L > 2·S` re-grouping loop: skip clusters of ≤ 1 member,
otherwise full-hash every member, re-group, and keep sub-groups of ≥ 2. -/
def fullHashStep (fs : String → Option (List Nat)) (r : HashGroupResult)
    (g : String × List String) : HashGroupResult :=
  if g.2.length ≤ 1 then r
  else
    let fullGroups := g.2.foldl
      (fun acc p =>
        match compute_full_hash_fs fs p with
        | some h => addToGroup acc h p
        | none => acc) []
    { groups := r.groups ++ fullGroups.filter (fun fg => 1 < fg.2.length),
      full_hash_files := r.full_hash_files + g.2.length,
      partial_collision_groups := r.partial_collision_groups + 1 }

/-- duplicates.rs `group_duplicates_for_hashes`: within one size bucket,
group by partial hash; if `size ≤ 2·S` report clusters of ≥ 2 directly,
otherwise disambiguate every cluster of ≥ 2 by full hash. -/
def group_duplicates_for_hashes (fs : String → Option (List Nat)) (size : Nat)
    (hashes : List (String × Option String)) : HashGroupResult :=
  let hash_groups := groupByHash hashes
  if size ≤ PARTIAL_HASH_SIZE * 2 then
    { groups := hash_groups.filter (fun g => 1 < g.2.length),
      full_hash_files := 0,
      partial_collision_groups := 0 }
  else
    hash_groups.foldl (fullHashStep fs)
      { groups := [], full_hash_files := 0, partial_collision_groups := 0 }

end Duplicates

/-! ### Concrete instances used by witnesses -/

/-- A tiny filesystem oracle: `a` and `b` hold byte `1`, `c` holds byte `2`. -/
def hashFsExample : String → Option (List Nat) := fun p =>
  if p = "a" then some [1] else if p = "b" then some [1] else if p = "c" then some [2] else none

/-- Three paths sharing one partial hash within a single size bucket. -/
def hashesExample : List (String × Option String) :=
  [("a", some "ph"), ("b", some "ph"), ("c", some "ph")]

/-- The full-hash cluster the pipeline confirms for `hashesExample`. -/
def groupABExample : String × List String :=
  (hexString (SHA256.sha256 [1]), ["a", "b"])

/-! ## scanner.rs — aggregated node store, bottom-up size pass and tree projection

The walk produces a `DashMap<PathBuf, TempNode>` whose `children_paths` lists
(filled by the relation pass with each path's unique parent) form a forest; the
shallow embedding represents this linked store directly as the inductive tree
`TempTree`, with `children = none` for files (the walker stores `None`) and
`some l` for directories.  A child's absolute path is its parent's path plus
`"/" ++ name`, as produced by the filesystem walk. -/

namespace Scanner

/-- scanner.rs line 62. -/
def MAX_CHILDREN : Nat := 500

/-- scanner.rs line 63. -/
def MAX_DEPTH : Nat := 25

/-- scanner.rs line 64. -/
def MAX_TOTAL_NODES : Nat := 200000

/-- The aggregated `TempNode` store reachable from the scan root. -/
inductive TempTree where
  | mk (name : String) (size : Nat) (is_dir : Bool) (extension : Option String)
      (modified_at : Option Nat) (children : Option (List TempTree))

def TempTree.name : TempTree → String
  | .mk v _ _ _ _ _ => v

def TempTree.size : TempTree → Nat
  | .mk _ v _ _ _ _ => v

def TempTree.is_dir : TempTree → Bool
  | .mk _ _ v _ _ _ => v

def TempTree.extension : TempTree → Option String
  | .mk _ _ _ v _ _ => v

def TempTree.modified_at : TempTree → Option Nat
  | .mk _ _ _ _ v _ => v

def TempTree.children : TempTree → Option (List TempTree)
  | .mk _ _ _ _ _ v => v

/-- The exported tree node (scanner.rs `FileNode`). -/
inductive FileNode where
  | mk (id name path : String) (size : Nat) (is_dir : Bool) (children : List FileNode)
      (extension : Option String) (file_count dir_count : Nat) (modified_at : Option Nat)

def FileNode.id : FileNode → String
  | .mk v _ _ _ _ _ _ _ _ _ => v

def FileNode.name : FileNode → String
  | .mk _ v _ _ _ _ _ _ _ _ => v

def FileNode.path : FileNode → String
  | .mk _ _ v _ _ _ _ _ _ _ => v

def FileNode.size : FileNode → Nat
  | .mk _ _ _ v _ _ _ _ _ _ => v

def FileNode.is_dir : FileNode → Bool
  | .mk _ _ _ _ v _ _ _ _ _ => v

def FileNode.children : FileNode → List FileNode
  | .mk _ _ _ _ _ v _ _ _ _ => v

def FileNode.extension : FileNode → Option String
  | .mk _ _ _ _ _ _ v _ _ _ => v

def FileNode.file_count : FileNode → Nat
  | .mk _ _ _ _ _ _ _ v _ _ => v

def FileNode.dir_count : FileNode → Nat
  | .mk _ _ _ _ _ _ _ _ v _ => v

def FileNode.modified_at : FileNode → Option Nat
  | .mk _ _ _ _ _ _ _ _ _ v => v

/-- Sum of the stored sizes of a list of store nodes. -/
def sumSizesT : List TempTree → Nat
  | [] => 0
  | t :: ts => t.size + sumSizesT ts

/- scanner.rs `calc_sizes_bottomup_dashmap` (lines 621-653): iterative
post-order traversal; after all its descendants are visited, a directory's
size becomes the sum of its children's (already updated) sizes.  Files and
nodes without a child list keep their stored size. -/
mutual

def calcSizes : TempTree → TempTree
  | .mk n s d e m none => .mk n s d e m none
  | .mk n s d e m (some l) =>
      let l2 := calcSizesList l
      .mk n (if d then sumSizesT l2 else s) d e m (some l2)

def calcSizesList : List TempTree → List TempTree
  | [] => []
  | t :: ts => calcSizes t :: calcSizesList ts

end

/-- Stable insertion of a `(child, childPath)` pair into a list sorted by
descending size: the pair goes after every earlier element of ≥ size. -/
def insertDesc (x : TempTree × String) : List (TempTree × String) → List (TempTree × String)
  | [] => [x]
  | y :: ys => if y.1.size ≤ x.1.size then x :: y :: ys else y :: insertDesc x ys

/-- The unique stable sort by descending size
(scanner.rs line 692, `sort_by(|a, b| b.1.cmp(&a.1))` with a stable sort). -/
def sortBySizeDesc (l : List (TempTree × String)) : List (TempTree × String) :=
  l.foldr insertDesc []

/-- The synthetic overflow bucket node pushed at scanner.rs lines 724-737:
`id` is the parent path with a `/__other__` suffix, while the `path` field
repeats the parent path itself. -/
def overflowNode (pathStr : String) (os ofc odc : Nat) : FileNode :=
  FileNode.mk (pathStr ++ "/__other__") ("<" ++ toString (ofc + odc) ++ " more items>")
    pathStr os true [] none ofc odc none

/-- The state of the child-projection loop of scanner.rs lines 694-722. -/
structure LoopState where
  children : List FileNode
  other_size : Nat
  other_file_count : Nat
  other_dir_count : Nat
  i : Nat
  cnt : Nat

/-- One iteration of the child loop: expand the child through `rec` when the
fan-out, depth and total-node limits all allow it, otherwise (or when the
recursion itself declines by hitting the node budget) accumulate the child
into the overflow bucket. -/
def buildStep (rec : TempTree → String → Nat → Option FileNode × Nat) (depth : Nat)
    (st : LoopState) (cm : TempTree × String) : LoopState :=
  let c := cm.1
  let at_limit := MAX_TOTAL_NODES ≤ st.cnt
  if st.i < MAX_CHILDREN ∧ depth < MAX_DEPTH ∧ ¬ at_limit then
    match rec c cm.2 st.cnt with
    | (some node, cnt2) =>
        { st with children := st.children ++ [node], i := st.i + 1, cnt := cnt2 }
    | (none, cnt2) =>
        { st with
          other_size := st.other_size + c.size,
          other_file_count := st.other_file_count + (if c.is_dir then 0 else 1),
          other_dir_count := st.other_dir_count + (if c.is_dir then 1 else 0),
          i := st.i + 1, cnt := cnt2 }
  else
    { st with
      other_size := st.other_size + c.size,
      other_file_count := st.other_file_count + (if c.is_dir then 0 else 1),
      other_dir_count := st.other_dir_count + (if c.is_dir then 1 else 0),
      i := st.i + 1 }

/-- `file_count` of an emitted directory, from its actually emitted children
(scanner.rs lines 739-741). -/
def fileCountOf (children : List FileNode) : Nat :=
  (children.map (fun c => if c.is_dir then c.file_count else 1)).sum

/-- `dir_count` of an emitted directory (scanner.rs lines 742-744). -/
def dirCountOf (children : List FileNode) : Nat :=
  (children.map (fun c => if c.is_dir then 1 + c.dir_count else 0)).sum

/-- The sorted `(child, childPath)` meta list collected at scanner.rs
lines 681-692. -/
def childMetas (t : TempTree) (pathStr : String) : List (TempTree × String) :=
  sortBySizeDesc ((t.children.getD []).map (fun c => (c, pathStr ++ "/" ++ c.name)))

/-- The final state of the child loop, started from an empty accumulator with
the node counter already incremented for the directory itself. -/
def loopFinal (rec : TempTree → String → Nat → Option FileNode × Nat) (depth cnt1 : Nat)
    (metas : List (TempTree × String)) : LoopState :=
  metas.foldl (buildStep rec depth) ⟨[], 0, 0, 0, 0, cnt1⟩

/-- Emitted children of a directory: the expanded ones, plus one synthetic
overflow node exactly when some child was declined (scanner.rs lines 724-737). -/
def finalChildren (pathStr : String) (st : LoopState) : List FileNode :=
  if 0 < st.other_file_count + st.other_dir_count then
    st.children ++ [overflowNode pathStr st.other_size st.other_file_count st.other_dir_count]
  else st.children

/-- Projection of one directory given the recursion `rec` for its children. -/
def projectDir (rec : TempTree → String → Nat → Option FileNode × Nat)
    (t : TempTree) (pathStr : String) (depth cnt1 : Nat) : FileNode × Nat :=
  let st := loopFinal rec depth cnt1 (childMetas t pathStr)
  let children := finalChildren pathStr st
  (FileNode.mk pathStr t.name pathStr t.size true children none
    (fileCountOf children) (dirCountOf children) t.modified_at, st.cnt)

/-- scanner.rs `build_tree_dashmap` (lines 655-759).  The recursion is
structured on an explicit fuel so the kernel can evaluate it; since children
are only expanded while `depth < MAX_DEPTH`, any fuel above `MAX_DEPTH + 1 -
depth` (in particular the top-level `MAX_DEPTH + 1` at depth 0) makes the
fuel-exhaustion branch unreachable. -/
def buildTreeF : Nat → TempTree → String → Nat → Nat → Option FileNode × Nat
  | 0, _, _, _, cnt => (none, cnt)
  | fuel + 1, t, pathStr, depth, cnt =>
      if MAX_TOTAL_NODES ≤ cnt then (none, cnt)
      else
        let cnt1 := cnt + 1
        if t.is_dir then
          let r := projectDir (fun c cp cnt2 => buildTreeF fuel c cp (depth + 1) cnt2)
            t pathStr depth cnt1
          (some r.1, r.2)
        else
          (some (FileNode.mk pathStr t.name pathStr t.size false [] t.extension 0 0
            t.modified_at), cnt1)

/-- The projection as invoked by `scan` (scanner.rs line 536): depth 0 and a
fresh node counter. -/
def buildTree (t : TempTree) (rootPath : String) : Option FileNode :=
  (buildTreeF (MAX_DEPTH + 1) t rootPath 0 0).1

/-- Sum of `size` fields of emitted children. -/
def sumSizesF : List FileNode → Nat
  | [] => 0
  | c :: cs => c.size + sumSizesF cs

/- Every directory of the store that the walker shaped has a child list
(the walker stores `Some(Vec::new())` for every directory, scanner.rs line 381). -/
mutual

def dirsShapedB : TempTree → Bool
  | .mk _ _ d _ _ none => !d
  | .mk _ _ _ _ _ (some l) => dirsShapedListB l

def dirsShapedListB : List TempTree → Bool
  | [] => true
  | t :: ts => dirsShapedB t && dirsShapedListB ts

end

/- A store is size-consistent when every directory's stored size is the sum
of its children's stored sizes — the post-state of the bottom-up size pass. -/
mutual

def sizedStoreB : TempTree → Bool
  | .mk _ _ false _ _ _ => true
  | .mk _ _ true _ _ none => false
  | .mk _ s true _ _ (some l) => (s == sumSizesT l) && sizedStoreListB l

def sizedStoreListB : List TempTree → Bool
  | [] => true
  | t :: ts => sizedStoreB t && sizedStoreListB ts

end

/- The claim's size-conservation property read literally over every directory
node of the exported tree: with no synthetic overflow child the directory's
size is the sum of its children's sizes, and with one it is the sum of the
expanded children's sizes plus the overflow node's size.  A synthetic child is
recognizable by its `id` differing from its `path` (real nodes always have
`id = path`). -/
mutual

def nodeClaimC1 : FileNode → Bool
  | .mk _ _ path size d children _ _ _ _ =>
      (if d then
        match children.filter (fun c => c.id == path ++ "/__other__" && c.id != c.path) with
        | [] => size == sumSizesF children
        | [o] =>
            size ==
              sumSizesF (children.filter
                (fun c => !(c.id == path ++ "/__other__" && c.id != c.path))) + o.size
        | _ => true
      else true) && nodeClaimC1List children

def nodeClaimC1List : List FileNode → Bool
  | [] => true
  | c :: cs => nodeClaimC1 c && nodeClaimC1List cs

end

/- The amended conservation property: every directory node whose `id` equals
its `path` (every non-synthetic node) has `size = Σ children.size`, the
synthetic overflow child included in the sum when present. -/
mutual

def conservesRealB : FileNode → Bool
  | .mk id _ path size d children _ _ _ _ =>
      (!(d && id == path) || (size == sumSizesF children)) && conservesRealListB children

def conservesRealListB : List FileNode → Bool
  | [] => true
  | c :: cs => conservesRealB c && conservesRealListB cs

end

/-- Sum of the store sizes in a `(child, childPath)` meta list. -/
def sumMetaSizes : List (TempTree × String) → Nat
  | [] => 0
  | m :: ms => m.1.size + sumMetaSizes ms

def defaultFileNode : FileNode := .mk "" "" "" 0 false [] none 0 0 none

/-- A store chain of `k` nested directories ending in a 5-byte file; with
`k = 26` the innermost directory sits at projection depth 25, the depth cap,
so its file child is declined and collapsed into an overflow bucket. -/
def mkChain : Nat → TempTree
  | 0 => .mk "f" 5 false none none none
  | k + 1 => .mk ("d" ++ toString k) 0 true none none (some [mkChain k])

/-- Walk `k` first-children deep into an exported tree. -/
def descend : Nat → FileNode → FileNode
  | 0, n => n
  | k + 1, n => descend k (n.children.headD n)

/-- The exported tree of the depth-26 chain store. -/
def chainProj : FileNode :=
  (buildTree (calcSizes (mkChain 26)) "/r").getD defaultFileNode

end Scanner

/-! ## snapshot.rs — the snapshot differ

`DashMap`/`HashSet` iteration order is unspecified in the source; the model
fixes one linearization (pre-order flattening, first-list order for the set
operations).  Every fact proved below is insensitive to that choice except the
order of the sorted output lists, which the stable sorts determine whenever
the sort keys are distinct (as in the scenario of claim C3).  `time_ms` (wall
time) is not modelled. -/

namespace Snapshot

structure SnapshotFile where
  path : String
  name : String
  size : Nat
  is_dir : Bool
  modified : Nat
  deriving DecidableEq

structure ChangedFile where
  path : String
  name : String
  old_size : Nat
  new_size : Nat
  size_diff : Int
  is_dir : Bool
  deriving DecidableEq

structure SnapshotCompareResult where
  scan_path : String
  old_timestamp : Nat
  new_timestamp : Nat
  added : List SnapshotFile
  removed : List SnapshotFile
  changed : List ChangedFile
  added_size : Nat
  removed_size : Nat
  net_size_change : Int
  unchanged_count : Nat
  deriving DecidableEq

/-- `DashMap::insert`: overwrite the value at `k` in place, or append. -/
def assocInsert (m : List (String × Nat × Bool × Nat)) (k : String) (v : Nat × Bool × Nat) :
    List (String × Nat × Bool × Nat) :=
  match m with
  | [] => [(k, v)]
  | (k2, v2) :: rest => if k2 = k then (k2, v) :: rest else (k2, v2) :: assocInsert rest k v

/- snapshot.rs `flatten_tree_recursive` (lines 65-88): map each node's
flattened path (name segments joined with `/`) to
`(size, is_dir, modified_at.unwrap_or(0))`. -/
mutual

def flattenInto : Scanner.FileNode → String → List (String × Nat × Bool × Nat) →
    List (String × Nat × Bool × Nat)
  | .mk _ nm _ sz d children _ _ _ ma, curPath, m =>
      let path := if curPath = "" then nm else curPath ++ "/" ++ nm
      flattenIntoList children path (assocInsert m path (sz, d, ma.getD 0))

def flattenIntoList : List Scanner.FileNode → String → List (String × Nat × Bool × Nat) →
    List (String × Nat × Bool × Nat)
  | [], _, m => m
  | c :: cs, path, m => flattenIntoList cs path (flattenInto c path m)

end

def flatten_tree (n : Scanner.FileNode) : List (String × Nat × Bool × Nat) :=
  flattenInto n "" []

/-- Rust `key.split('/').last().unwrap_or(key)`: the segment after the last
slash (the whole key when it has no slash). -/
def lastSegment (s : String) : String :=
  ⟨(s.data.reverse.takeWhile (fun c => c ≠ '/')).reverse⟩

def toSnapshotFile (key : String) (v : Nat × Bool × Nat) : SnapshotFile :=
  { path := key, name := lastSegment key, size := v.1, is_dir := v.2.1, modified := v.2.2 }

/-- Stable insertion for the descending-size sort of added/removed. -/
def insertFileDesc (x : SnapshotFile) : List SnapshotFile → List SnapshotFile
  | [] => [x]
  | y :: ys => if y.size ≤ x.size then x :: y :: ys else y :: insertFileDesc x ys

def sortFilesDesc (l : List SnapshotFile) : List SnapshotFile :=
  l.foldr insertFileDesc []

/-- Stable insertion for the descending-|Δ| sort of changed entries. -/
def insertChangedDesc (x : ChangedFile) : List ChangedFile → List ChangedFile
  | [] => [x]
  | y :: ys =>
      if y.size_diff.natAbs ≤ x.size_diff.natAbs then x :: y :: ys
      else y :: insertChangedDesc x ys

def sortChangedDesc (l : List ChangedFile) : List ChangedFile :=
  l.foldr insertChangedDesc []

/-- snapshot.rs `compare_snapshots` (lines 91-215). -/
def compare_snapshots (old_root new_root : Scanner.FileNode) (scan_path : String)
    (old_timestamp new_timestamp : Nat) : SnapshotCompareResult :=
  let old_files := flatten_tree old_root
  let new_files := flatten_tree new_root
  let old_keys := old_files.map Prod.fst
  let new_keys := new_files.map Prod.fst
  let added_keys := new_keys.filter (fun k => !old_keys.contains k)
  let added := added_keys.filterMap
    (fun k => (new_files.lookup k).map (toSnapshotFile k))
  let removed_keys := old_keys.filter (fun k => !new_keys.contains k)
  let removed := removed_keys.filterMap
    (fun k => (old_files.lookup k).map (toSnapshotFile k))
  let common_keys := old_keys.filter (fun k => new_keys.contains k)
  let changedAndCount := common_keys.foldl
    (fun (acc : List ChangedFile × Nat) k =>
      match old_files.lookup k, new_files.lookup k with
      | some vo, some vn =>
          if vo.1 ≠ vn.1 then
            (acc.1 ++ [ChangedFile.mk k (lastSegment k) vo.1 vn.1
              ((vn.1 : Int) - (vo.1 : Int)) vo.2.1], acc.2)
          else (acc.1, acc.2 + 1)
      | _, _ => acc) ([], 0)
  let added := sortFilesDesc added
  let removed := sortFilesDesc removed
  let changed := sortChangedDesc changedAndCount.1
  let added_size := ((added.filter (fun f => !f.is_dir)).map (fun f => f.size)).sum
  let removed_size := ((removed.filter (fun f => !f.is_dir)).map (fun f => f.size)).sum
  let change_diff := (changed.map (fun f => f.size_diff)).sum
  { scan_path := scan_path,
    old_timestamp := old_timestamp,
    new_timestamp := new_timestamp,
    added := added,
    removed := removed,
    changed := changed,
    added_size := added_size,
    removed_size := removed_size,
    net_size_change := (added_size : Int) - (removed_size : Int) + change_diff,
    unchanged_count := changedAndCount.2 }

/-- Scenario F's old tree: `root` containing `a.txt = 100`, `b.txt = 200`
(exported-tree sizes, so the root aggregates to 300). -/
def oldTreeF : Scanner.FileNode :=
  .mk "root" "root" "root" 300 true
    [.mk "a.txt" "a.txt" "a.txt" 100 false [] none 0 0 none,
     .mk "b.txt" "b.txt" "b.txt" 200 false [] none 0 0 none] none 2 0 none

/-- Scenario F's new tree: `a.txt = 100`, `b.txt = 500`, `c.txt = 50`
(root aggregates to 650). -/
def newTreeF : Scanner.FileNode :=
  .mk "root" "root" "root" 650 true
    [.mk "a.txt" "a.txt" "a.txt" 100 false [] none 0 0 none,
     .mk "b.txt" "b.txt" "b.txt" 500 false [] none 0 0 none,
     .mk "c.txt" "c.txt" "c.txt" 50 false [] none 0 0 none] none 3 0 none

end Snapshot

/-! ## cache.rs — cache store, size guard and snapshot retention

The cache directory is modelled as an association list from file name to the
stored record (file contents being the bincode serialization of the record,
whose byte length `cachedScanLen` models bincode 1.x defaults: fixed-width
little-endian integers, `u64` length-prefixed strings and vectors, 1-byte
`Option` tags and booleans, with the two `skip_serializing_if` options
contributing nothing when `None`).  Timestamped snapshot files
`{key}_{timestamp}.snap` are modelled as `(key, timestamp, version)` records.
Directory creation and clock access are pure parameters. -/

namespace Cache

/-- cache.rs line 33. -/
def CACHE_VERSION : Nat := 1

/-- cache.rs line 66: 500 MiB. -/
def MAX_CACHE_SIZE : Nat := 500 * 1024 * 1024

/-- cache.rs line 63. -/
def MAX_SNAPSHOTS_PER_PATH : Nat := 10

structure CachedScan where
  version : Nat
  scan_path : String
  scanned_at : Nat
  total_files : Nat
  total_dirs : Nat
  total_size : Nat
  root : Scanner.FileNode

/- cache.rs `count_items` (lines 218-233). -/
mutual

def count_items : Scanner.FileNode → Nat × Nat
  | .mk _ _ _ _ d children _ _ _ _ =>
      if d then
        let s := count_itemsList children
        (s.1, 1 + s.2)
      else (1, 0)

def count_itemsList : List Scanner.FileNode → Nat × Nat
  | [] => (0, 0)
  | c :: cs =>
      let a := count_items c
      let b := count_itemsList cs
      (a.1 + b.1, a.2 + b.2)

end

/-- UTF-8 encoding of a string, byte by byte. -/
def utf8Bytes (s : String) : List Nat :=
  s.data.flatMap (fun c =>
    let n := c.toNat
    if n < 0x80 then [n]
    else if n < 0x800 then [0xC0 ||| (n >>> 6), 0x80 ||| (n &&& 0x3F)]
    else if n < 0x10000 then
      [0xE0 ||| (n >>> 12), 0x80 ||| ((n >>> 6) &&& 0x3F), 0x80 ||| (n &&& 0x3F)]
    else
      [0xF0 ||| (n >>> 18), 0x80 ||| ((n >>> 12) &&& 0x3F),
       0x80 ||| ((n >>> 6) &&& 0x3F), 0x80 ||| (n &&& 0x3F)])

/- Serialized byte length of a `FileNode` under bincode 1.x defaults,
honouring the `skip_serializing_if = "Option::is_none"` attributes on
`extension` and `modified_at`. -/
mutual

def fileNodeLen : Scanner.FileNode → Nat
  | .mk id nm p _ _ children ext _ _ ma =>
      (8 + (utf8Bytes id).length) + (8 + (utf8Bytes nm).length) +
      (8 + (utf8Bytes p).length) + 8 + 1 +
      (8 + fileNodeListLen children) +
      (match ext with
        | none => 0
        | some e => 1 + (8 + (utf8Bytes e).length)) +
      8 + 8 +
      (match ma with
        | none => 0
        | some _ => 1 + 8)

def fileNodeListLen : List Scanner.FileNode → Nat
  | [] => 0
  | c :: cs => fileNodeLen c + fileNodeListLen cs

end

/-- Serialized byte length of a `CachedScan` record. -/
def cachedScanLen (c : CachedScan) : Nat :=
  4 + (8 + (utf8Bytes c.scan_path).length) + 8 + 8 + 8 + 8 + fileNodeLen c.root

/-- cache.rs `path_to_cache_key` (lines 41-46): first 16 lowercase hex
characters of the SHA-256 of the path. -/
def path_to_cache_key (path : String) : String :=
  ⟨(hexString (SHA256.sha256 (utf8Bytes path))).data.take 16⟩

/-- The legacy single-cache file name `{key}.bin` for a scan path. -/
def cacheFileName (scan_path : String) : String :=
  path_to_cache_key scan_path ++ ".bin"

/-- The on-disk cache directory: file name → stored record. -/
def CacheFS : Type := List (String × CachedScan)

/-- `fs::write`: create or overwrite one file. -/
def writeCacheFile (fs : CacheFS) (name : String) (rec : CachedScan) : CacheFS :=
  (List.filter (fun e => e.1 != name) fs) ++ [(name, rec)]

/-- The record `save_to_cache` builds before serializing (cache.rs lines 84-95). -/
def mkCached (scan_path : String) (root : Scanner.FileNode) (now : Nat) : CachedScan :=
  { version := CACHE_VERSION, scan_path := scan_path, scanned_at := now,
    total_files := (count_items root).1, total_dirs := (count_items root).2,
    total_size := root.size, root := root }

/-- cache.rs `save_to_cache` (lines 69-116): serialize first, refuse the
write and report an error when the blob exceeds `MAX_CACHE_SIZE`, otherwise
write the single cache file for the path. -/
def save_to_cache (fs : CacheFS) (scan_path : String) (root : Scanner.FileNode)
    (now : Nat) : Except String String × CacheFS :=
  let cached := mkCached scan_path root now
  let serializedLen := cachedScanLen cached
  if serializedLen > MAX_CACHE_SIZE then
    (Except.error "Cache too large, skipping", fs)
  else
    (Except.ok (cacheFileName scan_path), writeCacheFile fs (cacheFileName scan_path) cached)

/-- A timestamped snapshot file `{key}_{timestamp}.snap`, with the format
version of the record it holds. -/
structure SnapFile where
  key : String
  timestamp : Nat
  version : Nat
  deriving DecidableEq

abbrev SnapStore : Type := List SnapFile

/-- Stable insertion for the newest-first sort of snapshot timestamps. -/
def insertNatDesc (x : Nat) : List Nat → List Nat
  | [] => [x]
  | y :: ys => if y ≤ x then x :: y :: ys else y :: insertNatDesc x ys

def sortNatDesc (l : List Nat) : List Nat := l.foldr insertNatDesc []

/-- cache.rs `list_snapshots` (lines 371-430), reduced to the timestamps it
reports: the snapshot files of the path's key whose record deserializes with
the current version, newest first. -/
def list_snapshots (store : SnapStore) (scan_path : String) : List Nat :=
  sortNatDesc ((store.filter (fun f =>
    f.key == path_to_cache_key scan_path && f.version == CACHE_VERSION)).map
      (fun f => f.timestamp))

/-- cache.rs `delete_snapshot` (lines 458-469): remove the file named by the
path's key and the timestamp. -/
def delete_snapshot (store : SnapStore) (scan_path : String) (ts : Nat) : SnapStore :=
  store.filter (fun f => !(f.key == path_to_cache_key scan_path && f.timestamp == ts))

/-- cache.rs `cleanup_old_snapshots` (lines 486-496): when more than
`MAX_SNAPSHOTS_PER_PATH` snapshots are listed, delete every one past the
first `MAX_SNAPSHOTS_PER_PATH` in the newest-first order. -/
def cleanup_old_snapshots (store : SnapStore) (scan_path : String) : SnapStore :=
  let snapshots := list_snapshots store scan_path
  if snapshots.length > MAX_SNAPSHOTS_PER_PATH then
    ((snapshots.drop MAX_SNAPSHOTS_PER_PATH).foldl
      (fun st ts => delete_snapshot st scan_path ts) store)
  else store

/-- `fs::write` of the snapshot file `{key}_{now}.snap`. -/
def writeSnapshotFile (store : SnapStore) (scan_path : String) (now : Nat) : SnapStore :=
  (store.filter (fun f =>
    !(f.key == path_to_cache_key scan_path && f.timestamp == now))) ++
    [⟨path_to_cache_key scan_path, now, CACHE_VERSION⟩]

/-- The listing predicate of `list_snapshots`, named for reuse: a snapshot
file of the path's key holding a current-version record. -/
def goodFor (scan_path : String) (f : SnapFile) : Bool :=
  f.key == path_to_cache_key scan_path && f.version == CACHE_VERSION

/-- A small concrete snapshot store: three current-version files of one key,
no two sharing a timestamp. -/
def exampleSnapStore : SnapStore :=
  [⟨"k", 3, 1⟩, ⟨"k", 7, 1⟩, ⟨"k", 5, 1⟩]

/-- cache.rs `save_snapshot` (lines 317-368): build the record, refuse it
when oversized, otherwise write `{key}_{now}.snap` and run the cleanup. -/
def save_snapshot (store : SnapStore) (scan_path : String) (root : Scanner.FileNode)
    (now : Nat) : Except String SnapStore :=
  let cached := mkCached scan_path root now
  let serializedLen := cachedScanLen cached
  if serializedLen > MAX_CACHE_SIZE then
    Except.error "Snapshot too large, skipping"
  else
    Except.ok (cleanup_old_snapshots (writeSnapshotFile store scan_path now) scan_path)

end Cache

namespace Scanner

/-- One walk callback observation (scanner.rs lines 298-337): the entry's
path, whether readdir reports a directory, and — for files whose metadata
call succeeds — the `(dev, ino)` pair and the byte length. `none` models a
failed metadata call. -/
structure Obs where
  path : String
  is_dir : Bool
  meta : Option ((Nat × Nat) × Nat)

/-- scanner.rs lines 323-337: `(file_size, inode_key)` — zero and no key for
directories and for files whose metadata call fails. -/
def obsSizeInode (e : Obs) : Nat × Option (Nat × Nat) :=
  if e.is_dir then (0, none)
  else
    match e.meta with
    | some m => (m.2, some m.1)
    | none => (0, none)

/-- The shared scan state touched by the walk callback: the `seen_inodes`
set, the file/dir counters, the cumulative `total_size`, and the node store
as the ordered list of `(path, stored_size)` insertions. -/
structure WalkSt where
  seen : List (Nat × Nat)
  files : Nat
  dirs : Nat
  total : Nat
  nodes : List (String × Nat)

/-- scanner.rs lines 339-382, one callback: compute `is_duplicate` by probing
and inserting the inode key (files only), bump the counters, add the size
only for non-duplicate files, and insert the node with `stored_size = 0` for
duplicate hard links. -/
def walkStep (st : WalkSt) (e : Obs) : WalkSt :=
  let file_size := (obsSizeInode e).1
  let is_duplicate : Bool :=
    match (obsSizeInode e).2 with
    | some key => if e.is_dir then false else decide (key ∈ st.seen)
    | none => false
  let seen2 :=
    match (obsSizeInode e).2 with
    | some key =>
        if e.is_dir then st.seen
        else if key ∈ st.seen then st.seen else st.seen ++ [key]
    | none => st.seen
  if e.is_dir then
    { seen := seen2, files := st.files, dirs := st.dirs + 1,
      total := st.total,
      nodes := st.nodes ++ [(e.path, file_size)] }
  else
    { seen := seen2, files := st.files + 1, dirs := st.dirs,
      total := st.total + (if is_duplicate then 0 else file_size),
      nodes := st.nodes ++ [(e.path, if is_duplicate then 0 else file_size)] }

def initWalkSt : WalkSt := ⟨[], 0, 0, 0, []⟩

/-- Phase 1 of `scan`, linearized: fold the callback over the walk's entry
sequence. -/
def scanWalk (entries : List Obs) : WalkSt := entries.foldl walkStep initWalkSt

/-- Does this observation carry the inode key `K`? -/
def isK (K : Nat × Nat) (e : Obs) : Bool := (obsSizeInode e).2 == some K

/-- The `seen_inodes` update of one callback, in isolation. -/
def stepSeen (seen : List (Nat × Nat)) (e : Obs) : List (Nat × Nat) :=
  match (obsSizeInode e).2 with
  | some key =>
      if e.is_dir then seen
      else if key ∈ seen then seen else seen ++ [key]
  | none => seen

/-- The `stored_size` one callback writes into the node store. -/
def storedOf (seen : List (Nat × Nat)) (e : Obs) : Nat :=
  if e.is_dir then (obsSizeInode e).1
  else
    match (obsSizeInode e).2 with
    | some key => if key ∈ seen then 0 else (obsSizeInode e).1
    | none => (obsSizeInode e).1

/-- The node-store suffix a walk over `entries` appends, starting from a
given `seen_inodes` set. -/
def nodesOf : List Obs → List (Nat × Nat) → List (String × Nat)
  | [], _ => []
  | e :: es, seen => (e.path, storedOf seen e) :: nodesOf es (stepSeen seen e)

/-- A concrete walk: a root directory, two paths hardlinked to inode
`(1, 7)` of length 100, and an independent 30-byte file. -/
def hardlinkEntries : List Obs :=
  [⟨"/r", true, none⟩,
   ⟨"/r/a", false, some ((1, 7), 100)⟩,
   ⟨"/r/b", false, some ((1, 7), 100)⟩,
   ⟨"/r/c", false, some ((1, 8), 30)⟩]

/-- Is the cancellation flag, raised at moment `cancel_at` (`none` = never),
visible to a checkpoint that runs at moment `now`? -/
def cancelledAt (cancel_at : Option Nat) (now : Nat) : Bool :=
  match cancel_at with
  | some c => decide (c ≤ now)
  | none => false

/-- `Scanner::scan` reduced to its cancellation skeleton over a store `t`
with `numEntries` walked entries and `numFullBatches` full 50 000-pair
batches in phase 2. The observation points, in source order: each walk
callback checks the flag and quits the walk (scanner.rs line 299, moments
`0 .. numEntries - 1`); the post-walk check returns `None` (line 427, moment
`numEntries`); phase 2 checks only after each full batch (line 468, moments
`numEntries + 1 + i`). Phases 3-5 (sizes, tree build, cleanup) run with no
check and return the projected tree. -/
def scan (t : TempTree) (root_path : String) (numEntries numFullBatches : Nat)
    (cancel_at : Option Nat) : Option FileNode :=
  if cancelledAt cancel_at numEntries then none
  else if (List.range numFullBatches).any
      (fun i => cancelledAt cancel_at (numEntries + 1 + i)) then none
  else buildTree t root_path

/-- The `scan_directory` command around a cache-miss scan (lib.rs lines
561-594): returns `(command result, current tree after, tree handed to the
cache save)`. Only an `Ok(Some(root))` scan result stores the tree and
persists it; a `None` (cancelled) result is returned as `Ok(None)` with
nothing persisted and the previous tree left in place. -/
def scan_directory (prev : Option FileNode) (t : TempTree) (root_path : String)
    (numEntries numFullBatches : Nat) (cancel_at : Option Nat) :
    Except String (Option FileNode) × Option FileNode × Option FileNode :=
  match scan t root_path numEntries numFullBatches cancel_at with
  | some root => (Except.ok (some root), some root, some root)
  | none => (Except.ok none, prev, none)

end Scanner

namespace Incremental

/- lib.rs `node_exists` (lines 277-290). -/
mutual

def node_exists : Scanner.FileNode → String → Bool
  | .mk _ _ p _ d children _ _ _ _, target =>
      if p == target then true
      else if !d then false
      else node_existsList children target

def node_existsList : List Scanner.FileNode → String → Bool
  | [], _ => false
  | c :: cs, target =>
      if node_exists c target then true else node_existsList cs target

end

/-- `Path::parent` on plain slash-separated paths: strip the last segment
and its separator; `none` when the path holds no separator. -/
def parentPath (p : String) : Option String :=
  match p.data.reverse.dropWhile (fun c => !(c == '/')) with
  | [] => none
  | _ :: t => some (String.mk t.reverse)

/-- What the debounced refresh decides to do once the dirty set is coalesced
(lib.rs lines 380-459). -/
inductive RefreshAction where
  | fullRescan
  | targeted (dirs : List String)
  deriving DecidableEq

/-- Lexicographic byte comparison of character lists. -/
def charsLe : List Char → List Char → Bool
  | [], _ => true
  | _ :: _, [] => false
  | a :: as, b :: bs =>
      if a.toNat < b.toNat then true
      else if b.toNat < a.toNat then false
      else charsLe as bs

def strLe (a b : String) : Bool := charsLe a.data b.data

/-- Stable insertion for the ascending sort of the effective directories. -/
def insertStr (x : String) : List String → List String
  | [] => [x]
  | y :: ys => if strLe x y then x :: y :: ys else y :: insertStr x ys

def sortStrs (l : List String) : List String := l.foldr insertStr []

/-- `Vec::dedup`: drop adjacent duplicates. -/
def dedupAdj : List String → List String
  | [] => []
  | [a] => [a]
  | a :: b :: t => if a == b then dedupAdj (b :: t) else a :: dedupAdj (b :: t)

/-- lib.rs lines 413-426: each coalesced dirty directory still present in
the current tree stands for itself; a missing one is promoted to its parent
(or to the scan root when it has no parent); the list is sorted and
deduplicated. -/
def effectiveDirs (t : Scanner.FileNode) (dirty : List String)
    (root : String) : List String :=
  dedupAdj (sortStrs (dirty.map (fun dir =>
    if node_exists t dir then dir
    else
      match parentPath dir with
      | some par => par
      | none => root)))

/-- lib.rs lines 380-459, the refresh decision: the trigger flag
(`> 40` dirty dirs or the root among them), the missing-tree fallback, and
the targeted branch with its own root-escalation check. -/
def refreshAction (tree : Option Scanner.FileNode) (dirty : List String)
    (root : String) : RefreshAction :=
  let full_rescan := decide (dirty.length > 40) || dirty.contains root
  match tree with
  | none => RefreshAction.fullRescan
  | some t =>
      if full_rescan then RefreshAction.fullRescan
      else
        let eff := effectiveDirs t dirty root
        if eff.contains root then RefreshAction.fullRescan
        else RefreshAction.targeted eff

/-- A current tree rooted at `/r` holding the single file `/r/a`. -/
def escalationTree : Scanner.FileNode :=
  .mk "/r" "r" "/r" 5 true
    [.mk "/r/a" "a" "/r/a" 5 false [] none 0 0 none] none 1 0 none

end Incremental

/-! ### Facts about the hex rendering -/

theorem hexDigit_isLowerHex : ∀ n < 16, isLowerHexChar (hexDigit n) = true := by
  decide

theorem isLowerHexStr_hexString (bytes : List Nat) :
    isLowerHexStr (hexString bytes) = true := by
  have hchar : ∀ b : Nat, isLowerHexChar (hexDigit (b / 16 % 16)) = true ∧
      isLowerHexChar (hexDigit (b % 16)) = true := by
    intro b
    constructor
    · exact hexDigit_isLowerHex _ (Nat.mod_lt _ (by norm_num))
    · exact hexDigit_isLowerHex _ (Nat.mod_lt _ (by norm_num))
  simp only [isLowerHexStr, hexString, String.toList]
  induction bytes with
  | nil => rfl
  | cons b rest ih =>
      simp only [List.flatMap_cons, List.all_append, byteToHex, List.all_cons, List.all_nil]
      have hb := hchar b
      simp [hb.1, hb.2]
      simpa [isLowerHexStr, hexString, String.toList] using ih

/-- **C4.** For every file content, with `S = 64 KiB` and `L` the content length:
the duplicate finder's partial hash equals the full-content SHA-256 digest when
`L ≤ 2·S`, and otherwise equals the SHA-256 digest of the first `S` bytes, the
last `S` bytes, and the 8-byte little-endian encoding of `L`; the comparator's
`compute_partial_hash` agrees with the duplicate finder's; and the produced
string is lowercase hexadecimal. -/
theorem partial_hash_spec (content : List Nat) :
    (Duplicates.compute_partial_hash content content.length =
      if content.length ≤ 2 * Duplicates.PARTIAL_HASH_SIZE then
        some (hexString (SHA256.sha256 content))
      else
        some (hexString (SHA256.sha256
          (content.take Duplicates.PARTIAL_HASH_SIZE ++
           content.drop (content.length - Duplicates.PARTIAL_HASH_SIZE) ++
           leBytes 8 content.length)))) ∧
    Compare.compute_partial_hash content content.length =
      Duplicates.compute_partial_hash content content.length ∧
    (Duplicates.compute_partial_hash content content.length).all isLowerHexStr = true := by
  have hS : Duplicates.PARTIAL_HASH_SIZE = 65536 := rfl
  refine ⟨?_, ?_, ?_⟩
  · by_cases h : content.length ≤ Duplicates.PARTIAL_HASH_SIZE * 2
    · simp [Duplicates.compute_partial_hash, Duplicates.compute_full_hash, h,
        Nat.mul_comm 2 Duplicates.PARTIAL_HASH_SIZE]
    · have hlen : ¬ content.length < Duplicates.PARTIAL_HASH_SIZE := by
        rw [hS] at h ⊢; omega
      simp [Duplicates.compute_partial_hash, h, hlen, Nat.mul_comm 2 Duplicates.PARTIAL_HASH_SIZE]
  · rfl
  · by_cases h : content.length ≤ Duplicates.PARTIAL_HASH_SIZE * 2
    · simp [Duplicates.compute_partial_hash, Duplicates.compute_full_hash, h,
        isLowerHexStr_hexString]
    · have hlen : ¬ content.length < Duplicates.PARTIAL_HASH_SIZE := by
        rw [hS] at h ⊢; omega
      simp [Duplicates.compute_partial_hash, h, hlen, isLowerHexStr_hexString]

/-! ### C5: duplicate grouping within a size bucket -/

theorem addToGroup_sound {P : String → String → Prop} (h p : String) :
    ∀ (acc : List (String × List String)),
      (∀ g ∈ acc, ∀ q ∈ g.2, P g.1 q) → P h p →
      ∀ g ∈ Duplicates.addToGroup acc h p, ∀ q ∈ g.2, P g.1 q := by
  intro acc
  induction acc with
  | nil =>
      intro _ hp g hg q hq
      simp only [Duplicates.addToGroup, List.mem_singleton] at hg
      subst hg
      simp only [List.mem_singleton] at hq
      subst hq
      exact hp
  | cons kps rest ih =>
      obtain ⟨k, ps⟩ := kps
      intro hacc hp g hg q hq
      simp only [Duplicates.addToGroup] at hg
      by_cases hk : k = h
      · rw [if_pos hk] at hg
        rcases List.mem_cons.mp hg with hg1 | hg2
        · subst hg1
          rcases List.mem_append.mp hq with hq1 | hq2
          · exact hacc (k, ps) (List.mem_cons_self _ _) q hq1
          · simp only [List.mem_singleton] at hq2
            subst hq2
            exact hk ▸ hp
        · exact hacc g (List.mem_cons_of_mem _ hg2) q hq
      · rw [if_neg hk] at hg
        rcases List.mem_cons.mp hg with hg1 | hg2
        · subst hg1
          exact hacc (k, ps) (List.mem_cons_self _ _) q hq
        · exact ih (fun g hg => hacc g (List.mem_cons_of_mem _ hg)) hp g hg2 q hq

theorem fullHashFold_sound (fs : String → Option (List Nat)) :
    ∀ (l : List String) (acc : List (String × List String)),
      (∀ g ∈ acc, ∀ q ∈ g.2, Duplicates.compute_full_hash_fs fs q = some g.1) →
      ∀ g ∈ l.foldl
          (fun acc p =>
            match Duplicates.compute_full_hash_fs fs p with
            | some h => Duplicates.addToGroup acc h p
            | none => acc) acc,
        ∀ q ∈ g.2, Duplicates.compute_full_hash_fs fs q = some g.1 := by
  intro l
  induction l with
  | nil => intro acc hacc; simpa using hacc
  | cons p rest ih =>
      intro acc hacc
      simp only [List.foldl_cons]
      cases hcp : Duplicates.compute_full_hash_fs fs p with
      | none => exact ih acc hacc
      | some hv =>
          have hstep :
              (match some hv with
                | some h => Duplicates.addToGroup acc h p
                | none => acc) = Duplicates.addToGroup acc hv p := rfl
          rw [hstep]
          exact ih _
            (@addToGroup_sound
              (fun k q => Duplicates.compute_full_hash_fs fs q = some k)
              hv p acc hacc hcp)

theorem fullHashStep_foldl_sound (fs : String → Option (List Nat)) :
    ∀ (gs : List (String × List String)) (r : Duplicates.HashGroupResult),
      (∀ g ∈ r.groups, 2 ≤ g.2.length ∧
        ∀ q ∈ g.2, Duplicates.compute_full_hash_fs fs q = some g.1) →
      ∀ g ∈ (gs.foldl (Duplicates.fullHashStep fs) r).groups,
        2 ≤ g.2.length ∧ ∀ q ∈ g.2, Duplicates.compute_full_hash_fs fs q = some g.1 := by
  intro gs
  induction gs with
  | nil => intro r hr; simpa using hr
  | cons g0 rest ih =>
      intro r hr
      simp only [List.foldl_cons]
      apply ih
      intro g hg
      unfold Duplicates.fullHashStep at hg
      by_cases hlen : g0.2.length ≤ 1
      · rw [if_pos hlen] at hg
        exact hr g hg
      · rw [if_neg hlen] at hg
        simp only at hg
        rcases List.mem_append.mp hg with h1 | h2
        · exact hr g h1
        · have hf := List.mem_filter.mp h2
          refine ⟨?_, fullHashFold_sound fs g0.2 [] (by simp) g hf.1⟩
          have : 1 < g.2.length := by simpa using hf.2
          omega

/-- **C5.** In the duplicate finder, within a size bucket of common length `L`,
paths sharing a partial hash form a candidate cluster.  If `L ≤ 2·S` the
clusters of ≥ 2 members are reported directly as duplicate groups; if
`L > 2·S` each cluster is re-grouped by full hash and only sub-groups of ≥ 2
members are reported, every member of a reported group having exactly the
group's full hash — so two files whose full hashes differ (in particular,
same-length files that agree on the first and last `S` bytes but whose full
contents hash differently) are never reported in one duplicate group. -/
theorem duplicate_grouping_spec (fs : String → Option (List Nat)) (size : Nat)
    (hashes : List (String × Option String)) :
    (size ≤ 2 * Duplicates.PARTIAL_HASH_SIZE →
      Duplicates.group_duplicates_for_hashes fs size hashes =
        { groups := (Duplicates.groupByHash hashes).filter (fun g => 1 < g.2.length),
          full_hash_files := 0,
          partial_collision_groups := 0 }) ∧
    (2 * Duplicates.PARTIAL_HASH_SIZE < size →
      ∀ g ∈ (Duplicates.group_duplicates_for_hashes fs size hashes).groups,
        2 ≤ g.2.length ∧ ∀ q ∈ g.2, Duplicates.compute_full_hash_fs fs q = some g.1) ∧
    (2 * Duplicates.PARTIAL_HASH_SIZE < size →
      ∀ p q : String,
        Duplicates.compute_full_hash_fs fs p ≠ Duplicates.compute_full_hash_fs fs q →
        ∀ g ∈ (Duplicates.group_duplicates_for_hashes fs size hashes).groups,
          ¬ (p ∈ g.2 ∧ q ∈ g.2)) := by
  have hsound : 2 * Duplicates.PARTIAL_HASH_SIZE < size →
      ∀ g ∈ (Duplicates.group_duplicates_for_hashes fs size hashes).groups,
        2 ≤ g.2.length ∧ ∀ q ∈ g.2, Duplicates.compute_full_hash_fs fs q = some g.1 := by
    intro hgt g hg
    unfold Duplicates.group_duplicates_for_hashes at hg
    rw [if_neg (by omega)] at hg
    exact fullHashStep_foldl_sound fs (Duplicates.groupByHash hashes) _ (by simp) g hg
  refine ⟨?_, hsound, ?_⟩
  · intro hle
    unfold Duplicates.group_duplicates_for_hashes
    rw [if_pos (by omega)]
  · intro hgt p q hpq g hg ⟨hp, hq⟩
    have h1 := (hsound hgt g hg).2 p hp
    have h2 := (hsound hgt g hg).2 q hq
    exact hpq (h1.trans h2.symm)

theorem duplicate_grouping_spec_witness :
    (Duplicates.group_duplicates_for_hashes hashFsExample 100 [] =
      { groups := [], full_hash_files := 0, partial_collision_groups := 0 }) ∧
    (2 ≤ groupABExample.2.length ∧
      ∀ q ∈ groupABExample.2,
        Duplicates.compute_full_hash_fs hashFsExample q = some groupABExample.1) ∧
    ¬ (("a" : String) ∈ groupABExample.2 ∧ ("c" : String) ∈ groupABExample.2) :=
  ⟨(duplicate_grouping_spec hashFsExample 100 []).1 (by decide),
   (duplicate_grouping_spec hashFsExample 131073 hashesExample).2.1 (by decide)
     groupABExample (by decide),
   (duplicate_grouping_spec hashFsExample 131073 hashesExample).2.2 (by decide)
     "a" "c" (by decide) groupABExample (by decide)⟩

/-! ### C1/C6: size conservation and the overflow bucket -/

namespace Scanner

theorem sumSizesF_append (a b : List FileNode) :
    sumSizesF (a ++ b) = sumSizesF a + sumSizesF b := by
  induction a with
  | nil => simp [sumSizesF]
  | cons c cs ih => simp [sumSizesF, ih]; omega

theorem conservesRealListB_append (a b : List FileNode) :
    conservesRealListB (a ++ b) = (conservesRealListB a && conservesRealListB b) := by
  induction a with
  | nil => simp [conservesRealListB]
  | cons c cs ih => simp [conservesRealListB, ih, Bool.and_assoc]

theorem sumMetaSizes_insertDesc (x : TempTree × String) (l : List (TempTree × String)) :
    sumMetaSizes (insertDesc x l) = x.1.size + sumMetaSizes l := by
  induction l with
  | nil => rfl
  | cons y ys ih =>
      by_cases h : y.1.size ≤ x.1.size
      · simp [insertDesc, h, sumMetaSizes]
      · simp [insertDesc, h, sumMetaSizes, ih]
        omega

theorem sumMetaSizes_sort (l : List (TempTree × String)) :
    sumMetaSizes (sortBySizeDesc l) = sumMetaSizes l := by
  unfold sortBySizeDesc
  induction l with
  | nil => rfl
  | cons m ms ih =>
      rw [List.foldr_cons, sumMetaSizes_insertDesc, ih]
      rfl

theorem mem_insertDesc {y x : TempTree × String} {l : List (TempTree × String)} :
    y ∈ insertDesc x l ↔ y = x ∨ y ∈ l := by
  induction l with
  | nil => simp [insertDesc]
  | cons z zs ih =>
      by_cases h : z.1.size ≤ x.1.size
      · simp [insertDesc, h, List.mem_cons]
      · simp [insertDesc, h, List.mem_cons, ih]
        tauto

theorem mem_sortBySizeDesc {y : TempTree × String} {l : List (TempTree × String)} :
    y ∈ sortBySizeDesc l ↔ y ∈ l := by
  unfold sortBySizeDesc
  induction l with
  | nil => simp
  | cons m ms ih =>
      rw [List.foldr_cons, mem_insertDesc]
      simp [ih]

theorem sumMetaSizes_map (l : List TempTree) (p : String) :
    sumMetaSizes (l.map (fun c => (c, p ++ "/" ++ c.name))) = sumSizesT l := by
  induction l with
  | nil => rfl
  | cons c cs ih => simp [sumMetaSizes, sumSizesT, ih]

theorem sizedStoreListB_mem {l : List TempTree} (h : sizedStoreListB l = true) :
    ∀ x ∈ l, sizedStoreB x = true := by
  induction l with
  | nil => intro x hx; cases hx
  | cons t ts ih =>
      intro x hx
      rw [sizedStoreListB, Bool.and_eq_true] at h
      rcases List.mem_cons.mp hx with h1 | h2
      · exact h1 ▸ h.1
      · exact ih h.2 x h2

mutual

theorem calcSizes_sized (t : TempTree) (h : dirsShapedB t = true) :
    sizedStoreB (calcSizes t) = true := by
  match t with
  | .mk n s d e m none =>
      rw [dirsShapedB] at h
      have hd : d = false := by
        cases d
        · rfl
        · simp at h
      subst hd
      rw [calcSizes]
      rfl
  | .mk n s d e m (some l) =>
      rw [dirsShapedB] at h
      rw [calcSizes]
      cases d with
      | false => rfl
      | true =>
          simp only [if_true]
          rw [sizedStoreB, Bool.and_eq_true]
          exact ⟨beq_self_eq_true _, calcSizesList_sized l h⟩

theorem calcSizesList_sized (l : List TempTree) (h : dirsShapedListB l = true) :
    sizedStoreListB (calcSizesList l) = true := by
  match l with
  | [] => rfl
  | t :: ts =>
      rw [dirsShapedListB, Bool.and_eq_true] at h
      rw [calcSizesList, sizedStoreListB, Bool.and_eq_true]
      exact ⟨calcSizes_sized t h.1, calcSizesList_sized ts h.2⟩

end

end Scanner

namespace Scanner

theorem append_other_beq_false (p : String) : ((p ++ "/__other__") == p) = false := by
  rw [beq_eq_false_iff_ne]
  intro hcontra
  have hlen := congrArg String.length hcontra
  rw [String.length_append] at hlen
  have h10 : ("/__other__" : String).length = 10 := rfl
  omega

/-- Emitted nodes carry the requested path as both `id` and `path`, and the
store node's size and kind. -/
theorem buildTreeF_shape (fuel : Nat) (t : TempTree) (p : String) (depth cnt : Nat)
    (n : FileNode) (cnt2 : Nat) (h : buildTreeF fuel t p depth cnt = (some n, cnt2)) :
    n.id = p ∧ n.path = p ∧ n.size = t.size ∧ n.is_dir = t.is_dir := by
  match fuel with
  | 0 => simp [buildTreeF] at h
  | fuel + 1 =>
      rw [buildTreeF] at h
      by_cases h1 : MAX_TOTAL_NODES ≤ cnt
      · rw [if_pos h1] at h
        simp at h
      · rw [if_neg h1] at h
        by_cases h2 : t.is_dir
        · rw [if_pos h2] at h
          have hfst := congrArg Prod.fst h
          have hx := Option.some.inj hfst
          subst hx
          exact ⟨rfl, rfl, rfl, h2.symm ▸ rfl⟩
        · rw [if_neg h2] at h
          have hfst := congrArg Prod.fst h
          have hx := Option.some.inj hfst
          subst hx
          refine ⟨rfl, rfl, rfl, ?_⟩
          simp [FileNode.is_dir]
          exact ((Bool.not_eq_true _).mp h2).symm.symm

/-- What one iteration of the child loop does to the invariant quantities. -/
theorem buildStep_inv
    (rec : TempTree → String → Nat → Option FileNode × Nat) (depth : Nat)
    (hrec : ∀ c cp cnt n cnt2, sizedStoreB c = true → rec c cp cnt = (some n, cnt2) →
      conservesRealB n = true ∧ n.size = c.size)
    (m : TempTree × String) (hm : sizedStoreB m.1 = true)
    (st : LoopState) (hc : conservesRealListB st.children = true) :
    conservesRealListB (buildStep rec depth st m).children = true ∧
    sumSizesF (buildStep rec depth st m).children + (buildStep rec depth st m).other_size =
      sumSizesF st.children + st.other_size + m.1.size ∧
    st.other_file_count + st.other_dir_count ≤
      (buildStep rec depth st m).other_file_count + (buildStep rec depth st m).other_dir_count ∧
    ((buildStep rec depth st m).other_file_count + (buildStep rec depth st m).other_dir_count =
        st.other_file_count + st.other_dir_count →
      (buildStep rec depth st m).other_size = st.other_size) := by
  unfold buildStep
  by_cases hguard : st.i < MAX_CHILDREN ∧ depth < MAX_DEPTH ∧ ¬ MAX_TOTAL_NODES ≤ st.cnt
  · rw [if_pos hguard]
    rcases hr : rec m.1 m.2 st.cnt with ⟨o, cnt2⟩
    cases o with
    | some node =>
        have hnode := hrec m.1 m.2 st.cnt node cnt2 hm hr
        refine ⟨?_, ?_, ?_, ?_⟩
        · show conservesRealListB (st.children ++ [node]) = true
          rw [conservesRealListB_append, Bool.and_eq_true]
          exact ⟨hc, by simp [conservesRealListB, hnode.1]⟩
        · show sumSizesF (st.children ++ [node]) + st.other_size =
            sumSizesF st.children + st.other_size + m.1.size
          rw [sumSizesF_append]
          simp [sumSizesF, hnode.2]
          omega
        · exact le_refl _
        · intro _
          rfl
    | none =>
        refine ⟨hc, ?_, ?_, ?_⟩
        · show sumSizesF st.children + (st.other_size + m.1.size) =
            sumSizesF st.children + st.other_size + m.1.size
          omega
        · show st.other_file_count + st.other_dir_count ≤
            st.other_file_count + (if m.1.is_dir then 0 else 1) +
              (st.other_dir_count + (if m.1.is_dir then 1 else 0))
          by_cases hd : m.1.is_dir <;> simp [hd] <;> omega
        · intro hcount
          exfalso
          revert hcount
          show st.other_file_count + (if m.1.is_dir then 0 else 1) +
              (st.other_dir_count + (if m.1.is_dir then 1 else 0)) =
            st.other_file_count + st.other_dir_count → False
          by_cases hd : m.1.is_dir <;> simp [hd] <;> omega
  · rw [if_neg hguard]
    refine ⟨hc, ?_, ?_, ?_⟩
    · show sumSizesF st.children + (st.other_size + m.1.size) =
        sumSizesF st.children + st.other_size + m.1.size
      omega
    · show st.other_file_count + st.other_dir_count ≤
        st.other_file_count + (if m.1.is_dir then 0 else 1) +
          (st.other_dir_count + (if m.1.is_dir then 1 else 0))
      by_cases hd : m.1.is_dir <;> simp [hd] <;> omega
    · intro hcount
      exfalso
      revert hcount
      show st.other_file_count + (if m.1.is_dir then 0 else 1) +
          (st.other_dir_count + (if m.1.is_dir then 1 else 0)) =
        st.other_file_count + st.other_dir_count → False
      by_cases hd : m.1.is_dir <;> simp [hd] <;> omega

end Scanner

namespace Scanner

/-- The invariant of the whole child loop: emitted children all conserve, the
emitted sizes plus the overflow bucket account exactly for every child's stored
size, and the bucket is empty when no child was declined. -/
theorem buildLoop_inv
    (rec : TempTree → String → Nat → Option FileNode × Nat) (depth : Nat)
    (hrec : ∀ c cp cnt n cnt2, sizedStoreB c = true → rec c cp cnt = (some n, cnt2) →
      conservesRealB n = true ∧ n.size = c.size) :
    ∀ (metas : List (TempTree × String)), (∀ m ∈ metas, sizedStoreB m.1 = true) →
    ∀ st : LoopState, conservesRealListB st.children = true →
      conservesRealListB (metas.foldl (buildStep rec depth) st).children = true ∧
      sumSizesF (metas.foldl (buildStep rec depth) st).children +
          (metas.foldl (buildStep rec depth) st).other_size =
        sumSizesF st.children + st.other_size + sumMetaSizes metas ∧
      st.other_file_count + st.other_dir_count ≤
        (metas.foldl (buildStep rec depth) st).other_file_count +
          (metas.foldl (buildStep rec depth) st).other_dir_count ∧
      ((metas.foldl (buildStep rec depth) st).other_file_count +
            (metas.foldl (buildStep rec depth) st).other_dir_count =
          st.other_file_count + st.other_dir_count →
        (metas.foldl (buildStep rec depth) st).other_size = st.other_size) := by
  intro metas
  induction metas with
  | nil =>
      intro _ st hc
      exact ⟨hc, by simp [sumMetaSizes], le_refl _, fun _ => rfl⟩
  | cons m ms ih =>
      intro hmem st hc
      have hm : sizedStoreB m.1 = true := hmem m (List.mem_cons_self _ _)
      have hstep := buildStep_inv rec depth hrec m hm st hc
      have hrest := ih (fun x hx => hmem x (List.mem_cons_of_mem _ hx))
        (buildStep rec depth st m) hstep.1
      rw [List.foldl_cons]
      refine ⟨hrest.1, ?_, ?_, ?_⟩
      · rw [hrest.2.1, sumMetaSizes]
        omega
      · calc st.other_file_count + st.other_dir_count
            ≤ (buildStep rec depth st m).other_file_count +
                (buildStep rec depth st m).other_dir_count := hstep.2.2.1
          _ ≤ _ := hrest.2.2.1
      · intro heq
        have h1 : (buildStep rec depth st m).other_file_count +
            (buildStep rec depth st m).other_dir_count =
            st.other_file_count + st.other_dir_count := by
          have := hstep.2.2.1
          have := hrest.2.2.1
          omega
        have h2 := hrest.2.2.2 (by omega)
        rw [h2, hstep.2.2.2 h1]


/-- On a size-consistent directory, the stored size is the children's sum. -/
theorem sizedStore_dir_sum (t : TempTree) (hd : t.is_dir = true) (hsz : sizedStoreB t = true) :
    t.size = sumSizesT (t.children.getD []) ∧
    ∀ c ∈ t.children.getD [], sizedStoreB c = true := by
  match t with
  | .mk nm s d e mo cs =>
      have hdt : d = true := hd
      subst hdt
      match cs with
      | none => simp [sizedStoreB] at hsz
      | some l =>
          rw [sizedStoreB, Bool.and_eq_true] at hsz
          refine ⟨by simpa [TempTree.size, TempTree.children] using hsz.1, ?_⟩
          intro c hc
          simp only [TempTree.children, Option.getD] at hc
          exact sizedStoreListB_mem hsz.2 c hc

/-- Every element of the sorted meta list of a size-consistent directory is a
size-consistent store node. -/
theorem childMetas_sized (t : TempTree) (p : String) (hd : t.is_dir = true)
    (hsz : sizedStoreB t = true) :
    ∀ m ∈ childMetas t p, sizedStoreB m.1 = true := by
  intro m hm
  rw [childMetas, mem_sortBySizeDesc] at hm
  obtain ⟨c, hcl, hce⟩ := List.mem_map.mp hm
  rw [← hce]
  exact (sizedStore_dir_sum t hd hsz).2 c hcl

/-- The total size of the sorted meta list is the children's stored sum. -/
theorem sumMetaSizes_childMetas (t : TempTree) (p : String) :
    sumMetaSizes (childMetas t p) = sumSizesT (t.children.getD []) := by
  rw [childMetas, sumMetaSizes_sort, sumMetaSizes_map]

/-- Specialization of the loop invariant to the initial loop state. -/
theorem loopFinal_spec
    (rec : TempTree → String → Nat → Option FileNode × Nat) (depth cnt1 : Nat)
    (metas : List (TempTree × String))
    (hrec : ∀ c cp cnt n cnt2, sizedStoreB c = true → rec c cp cnt = (some n, cnt2) →
      conservesRealB n = true ∧ n.size = c.size)
    (hmem : ∀ m ∈ metas, sizedStoreB m.1 = true) :
    conservesRealListB (loopFinal rec depth cnt1 metas).children = true ∧
    sumSizesF (loopFinal rec depth cnt1 metas).children +
      (loopFinal rec depth cnt1 metas).other_size = sumMetaSizes metas ∧
    ((loopFinal rec depth cnt1 metas).other_file_count +
        (loopFinal rec depth cnt1 metas).other_dir_count = 0 →
      (loopFinal rec depth cnt1 metas).other_size = 0) := by
  have h := buildLoop_inv rec depth hrec metas hmem ⟨[], 0, 0, 0, 0, cnt1⟩ rfl
  rw [loopFinal]
  refine ⟨h.1, ?_, ?_⟩
  · have := h.2.1
    simpa [sumSizesF] using this
  · intro hz
    have := h.2.2.2 (by simpa using hz)
    simpa using this

/-- The emitted child list conserves and sums to the loop's total. -/
theorem finalChildren_spec (p : String) (st : LoopState)
    (hc : conservesRealListB st.children = true)
    (hz : st.other_file_count + st.other_dir_count = 0 → st.other_size = 0) :
    conservesRealListB (finalChildren p st) = true ∧
    sumSizesF (finalChildren p st) = sumSizesF st.children + st.other_size := by
  rw [finalChildren]
  by_cases hover : 0 < st.other_file_count + st.other_dir_count
  · rw [if_pos hover]
    constructor
    · rw [conservesRealListB_append, Bool.and_eq_true]
      refine ⟨hc, ?_⟩
      rw [conservesRealListB, Bool.and_eq_true]
      refine ⟨?_, rfl⟩
      rw [overflowNode, conservesRealB]
      simp [append_other_beq_false p, conservesRealListB]
    · rw [sumSizesF_append]
      simp [sumSizesF, overflowNode, FileNode.size]
  · rw [if_neg hover]
    have := hz (by omega)
    exact ⟨hc, by omega⟩

/-- A projected directory node conserves, and carries the stored size. -/
theorem projectDir_conserves
    (rec : TempTree → String → Nat → Option FileNode × Nat)
    (t : TempTree) (p : String) (depth cnt1 : Nat)
    (hd : t.is_dir = true) (hsz : sizedStoreB t = true)
    (hrec : ∀ c cp cnt n cnt2, sizedStoreB c = true → rec c cp cnt = (some n, cnt2) →
      conservesRealB n = true ∧ n.size = c.size) :
    conservesRealB (projectDir rec t p depth cnt1).1 = true ∧
    (projectDir rec t p depth cnt1).1.size = t.size := by
  have hloop := loopFinal_spec rec depth cnt1 (childMetas t p) hrec
    (childMetas_sized t p hd hsz)
  have hfin := finalChildren_spec p (loopFinal rec depth cnt1 (childMetas t p))
    hloop.1 hloop.2.2
  have hsum : sumSizesF (finalChildren p (loopFinal rec depth cnt1 (childMetas t p))) =
      t.size := by
    rw [hfin.2, hloop.2.1, sumMetaSizes_childMetas, (sizedStore_dir_sum t hd hsz).1]
  constructor
  · show conservesRealB (FileNode.mk p t.name p t.size true
      (finalChildren p (loopFinal rec depth cnt1 (childMetas t p))) none
      (fileCountOf (finalChildren p (loopFinal rec depth cnt1 (childMetas t p))))
      (dirCountOf (finalChildren p (loopFinal rec depth cnt1 (childMetas t p))))
      t.modified_at) = true
    rw [conservesRealB, Bool.and_eq_true]
    refine ⟨?_, hfin.1⟩
    rw [Bool.or_eq_true]
    right
    rw [hsum]
    exact beq_self_eq_true _
  · rfl

/-- Conservation through the projection: on a size-consistent store, every
node the projection emits satisfies the amended conservation property, and
its emitted size equals its stored size. -/
theorem buildTreeF_conserves :
    ∀ (fuel : Nat) (t : TempTree) (p : String) (depth cnt : Nat) (n : FileNode) (cnt2 : Nat),
      sizedStoreB t = true → buildTreeF fuel t p depth cnt = (some n, cnt2) →
      conservesRealB n = true ∧ n.size = t.size := by
  intro fuel
  induction fuel with
  | zero =>
      intro t p depth cnt n cnt2 _ h
      simp [buildTreeF] at h
  | succ fuel ih =>
      intro t p depth cnt n cnt2 hsz h
      rw [buildTreeF] at h
      by_cases h1 : MAX_TOTAL_NODES ≤ cnt
      · rw [if_pos h1] at h
        simp at h
      · rw [if_neg h1] at h
        by_cases h2 : t.is_dir
        · rw [if_pos h2] at h
          have hfst := congrArg Prod.fst h
          have hx := Option.some.inj hfst
          subst hx
          exact projectDir_conserves _ t p depth (cnt + 1) h2 hsz
            (fun c cp cnt3 n3 cnt4 hs hr => ih c cp (depth + 1) cnt3 n3 cnt4 hs hr)
        · rw [if_neg h2] at h
          have hfst := congrArg Prod.fst h
          have hx := Option.some.inj hfst
          subst hx
          constructor
          · rw [conservesRealB]
            simp [FileNode.is_dir, conservesRealListB]
          · rfl

end Scanner

namespace Scanner

theorem length_filter_not_add {α : Type} (l : List α) (p : α → Bool) :
    (l.filter (fun x => !p x)).length + (l.filter p).length = l.length := by
  induction l with
  | nil => simp
  | cons x xs ih =>
      by_cases hx : p x
      · simp [List.filter, hx]
        omega
      · simp [List.filter, hx]
        omega

/- The child loop splits the sorted metas into expanded children (emitted, all
with `id = path`) and declined ones, accumulated into the overflow counters. -/
theorem buildLoop_split
    (rec : TempTree → String → Nat → Option FileNode × Nat) (depth : Nat)
    (hrec : ∀ c cp cnt n cnt2, rec c cp cnt = (some n, cnt2) → n.id = n.path) :
    ∀ (metas : List (TempTree × String)) (st : LoopState),
      ∃ exp dec,
        List.Sublist dec metas ∧
        (metas.foldl (buildStep rec depth) st).children = st.children ++ exp ∧
        (∀ c ∈ exp, c.id = c.path) ∧
        (metas.foldl (buildStep rec depth) st).other_size =
          st.other_size + sumMetaSizes dec ∧
        (metas.foldl (buildStep rec depth) st).other_file_count =
          st.other_file_count + (dec.filter (fun m => !m.1.is_dir)).length ∧
        (metas.foldl (buildStep rec depth) st).other_dir_count =
          st.other_dir_count + (dec.filter (fun m => m.1.is_dir)).length := by
  intro metas
  induction metas with
  | nil =>
      intro st
      exact ⟨[], [], List.nil_sublist _, by simp, by simp,
        by simp [sumMetaSizes], by simp, by simp⟩
  | cons m ms ih =>
      intro st
      rw [List.foldl_cons]
      obtain ⟨exp1, dec1, hsub, hch, hid, hos, hofc, hodc⟩ := ih (buildStep rec depth st m)
      by_cases hguard : st.i < MAX_CHILDREN ∧ depth < MAX_DEPTH ∧ ¬ MAX_TOTAL_NODES ≤ st.cnt
      · rcases hr : rec m.1 m.2 st.cnt with ⟨o, cnt2⟩
        cases o with
        | some node =>
            have hstep : buildStep rec depth st m =
                { st with children := st.children ++ [node], i := st.i + 1, cnt := cnt2 } := by
              unfold buildStep
              rw [if_pos hguard, hr]
            have hp1 : (buildStep rec depth st m).children = st.children ++ [node] := by
              rw [hstep]
            have hp2 : (buildStep rec depth st m).other_size = st.other_size := by
              rw [hstep]
            have hp3 : (buildStep rec depth st m).other_file_count = st.other_file_count := by
              rw [hstep]
            have hp4 : (buildStep rec depth st m).other_dir_count = st.other_dir_count := by
              rw [hstep]
            refine ⟨node :: exp1, dec1, hsub.cons _, ?_, ?_, ?_, ?_, ?_⟩
            · rw [hch, hp1]
              simp [List.append_assoc]
            · intro c hc
              rcases List.mem_cons.mp hc with h1 | h2
              · exact h1 ▸ hrec m.1 m.2 st.cnt node cnt2 hr
              · exact hid c h2
            · rw [hos, hp2]
            · rw [hofc, hp3]
            · rw [hodc, hp4]
        | none =>
            have hstep : buildStep rec depth st m =
                { st with
                  other_size := st.other_size + m.1.size,
                  other_file_count := st.other_file_count + (if m.1.is_dir then 0 else 1),
                  other_dir_count := st.other_dir_count + (if m.1.is_dir then 1 else 0),
                  i := st.i + 1, cnt := cnt2 } := by
              unfold buildStep
              rw [if_pos hguard, hr]
            have hp1 : (buildStep rec depth st m).children = st.children := by
              rw [hstep]
            have hp2 : (buildStep rec depth st m).other_size =
                st.other_size + m.1.size := by
              rw [hstep]
            have hp3 : (buildStep rec depth st m).other_file_count =
                st.other_file_count + (if m.1.is_dir then 0 else 1) := by
              rw [hstep]
            have hp4 : (buildStep rec depth st m).other_dir_count =
                st.other_dir_count + (if m.1.is_dir then 1 else 0) := by
              rw [hstep]
            refine ⟨exp1, m :: dec1, hsub.cons₂ _, by rw [hch, hp1], hid, ?_, ?_, ?_⟩
            · rw [hos, hp2, sumMetaSizes]
              omega
            · rw [hofc, hp3, List.filter_cons]
              by_cases hd : m.1.is_dir <;> simp [hd] <;> omega
            · rw [hodc, hp4, List.filter_cons]
              by_cases hd : m.1.is_dir <;> simp [hd] <;> omega
      · have hstep : buildStep rec depth st m =
            { st with
              other_size := st.other_size + m.1.size,
              other_file_count := st.other_file_count + (if m.1.is_dir then 0 else 1),
              other_dir_count := st.other_dir_count + (if m.1.is_dir then 1 else 0),
              i := st.i + 1 } := by
          unfold buildStep
          rw [if_neg hguard]
        have hp1 : (buildStep rec depth st m).children = st.children := by
          rw [hstep]
        have hp2 : (buildStep rec depth st m).other_size =
            st.other_size + m.1.size := by
          rw [hstep]
        have hp3 : (buildStep rec depth st m).other_file_count =
            st.other_file_count + (if m.1.is_dir then 0 else 1) := by
          rw [hstep]
        have hp4 : (buildStep rec depth st m).other_dir_count =
            st.other_dir_count + (if m.1.is_dir then 1 else 0) := by
          rw [hstep]
        refine ⟨exp1, m :: dec1, hsub.cons₂ _, by rw [hch, hp1], hid, ?_, ?_, ?_⟩
        · rw [hos, hp2, sumMetaSizes]
          omega
        · rw [hofc, hp3, List.filter_cons]
          by_cases hd : m.1.is_dir <;> simp [hd] <;> omega
        · rw [hodc, hp4, List.filter_cons]
          by_cases hd : m.1.is_dir <;> simp [hd] <;> omega

end Scanner

/-- **C1 (amended).** For every directory node `D` in the exported tree of the
bottom-up-sized store, other than the synthetic overflow nodes themselves
(the nodes whose `id` differs from their `path`), `D.size` equals the sum of
its children's `size` fields — which is the sum of the expanded children's
sizes plus the overflow node's size when an overflow bucket is present.  The
claim as stated is refuted by `size_conservation_counterexample`: a synthetic
overflow node is itself a childless directory node of nonzero size. -/
theorem size_conservation (t : Scanner.TempTree) (root : String)
    (hshape : Scanner.dirsShapedB t = true) (n : Scanner.FileNode)
    (h : Scanner.buildTree (Scanner.calcSizes t) root = some n) :
    Scanner.conservesRealB n = true := by
  have hsz := Scanner.calcSizes_sized t hshape
  unfold Scanner.buildTree at h
  rcases hr : Scanner.buildTreeF (Scanner.MAX_DEPTH + 1) (Scanner.calcSizes t) root 0 0
    with ⟨o, c2⟩
  rw [hr] at h
  have ho : o = some n := h
  subst ho
  exact (Scanner.buildTreeF_conserves _ _ _ _ _ n c2 hsz hr).1

theorem size_conservation_witness :
    Scanner.dirsShapedB (Scanner.TempTree.mk "r" 0 true none none
      (some [.mk "a" 3 false none none none, .mk "b" 4 false none none none])) = true ∧
    Scanner.conservesRealB (Scanner.FileNode.mk "/r" "r" "/r" 7 true
      [Scanner.FileNode.mk "/r/b" "b" "/r/b" 4 false [] none 0 0 none,
       Scanner.FileNode.mk "/r/a" "a" "/r/a" 3 false [] none 0 0 none] none 2 0 none) = true :=
  ⟨rfl, size_conservation
    (Scanner.TempTree.mk "r" 0 true none none
      (some [.mk "a" 3 false none none none, .mk "b" 4 false none none none]))
    "/r" rfl
    (Scanner.FileNode.mk "/r" "r" "/r" 7 true
      [Scanner.FileNode.mk "/r/b" "b" "/r/b" 4 false [] none 0 0 none,
       Scanner.FileNode.mk "/r/a" "a" "/r/a" 3 false [] none 0 0 none] none 2 0 none)
    rfl⟩

set_option maxHeartbeats 1000000 in
/-- **C1 counterexample.** On the depth-26 chain store the projected tree
contains a directory node (the synthetic overflow bucket at the depth cap)
with no children and size 5, so the claim's per-directory equation — read
over every directory node of the exported tree — fails on this tree. -/
theorem size_conservation_counterexample :
    Scanner.dirsShapedB (Scanner.mkChain 26) = true ∧
    (Scanner.buildTree (Scanner.calcSizes (Scanner.mkChain 26)) "/r").isSome = true ∧
    Scanner.nodeClaimC1 Scanner.chainProj = false ∧
    (Scanner.descend 26 Scanner.chainProj).is_dir = true ∧
    (Scanner.descend 26 Scanner.chainProj).children.length = 0 ∧
    (Scanner.descend 26 Scanner.chainProj).size = 5 :=
  ⟨rfl, rfl, rfl, rfl, rfl, rfl⟩

/-- **C6 (amended).** When projecting a directory, the declined children are
collapsed into exactly one synthetic `"<K more items>"` directory node,
appended after the expanded children: it carries the summed size of the
declined children together with their file and directory counts, has no
children, and its `id` is the parent path suffixed with `/__other__` — but its
`path` field repeats the parent path itself (it does not end in `/__other__`;
see `overflow_path_counterexample`). -/
theorem synthetic_overflow_spec (fuel : Nat) (t : Scanner.TempTree) (p : String)
    (depth cnt : Nat) (n : Scanner.FileNode) (cnt2 : Nat)
    (hd : t.is_dir = true)
    (h : Scanner.buildTreeF fuel t p depth cnt = (some n, cnt2)) :
    ∃ (exp : List Scanner.FileNode) (dec : List (Scanner.TempTree × String)),
      List.Sublist dec (Scanner.childMetas t p) ∧
      (∀ c ∈ exp, c.id = c.path) ∧
      (dec.filter (fun m => !m.1.is_dir)).length +
        (dec.filter (fun m => m.1.is_dir)).length = dec.length ∧
      (dec = [] → n.children = exp) ∧
      (dec ≠ [] → n.children = exp ++
        [Scanner.FileNode.mk (p ++ "/__other__")
          ("<" ++ toString ((dec.filter (fun m => !m.1.is_dir)).length +
            (dec.filter (fun m => m.1.is_dir)).length) ++ " more items>")
          p (Scanner.sumMetaSizes dec) true [] none
          (dec.filter (fun m => !m.1.is_dir)).length
          (dec.filter (fun m => m.1.is_dir)).length none]) := by
  match fuel with
  | 0 => simp [Scanner.buildTreeF] at h
  | fuel + 1 =>
      rw [Scanner.buildTreeF] at h
      by_cases h1 : Scanner.MAX_TOTAL_NODES ≤ cnt
      · rw [if_pos h1] at h
        simp at h
      · rw [if_neg h1] at h
        rw [if_pos hd] at h
        have hfst := congrArg Prod.fst h
        have hx := Option.some.inj hfst
        subst hx
        have hrec2 : ∀ (c : Scanner.TempTree) (cp : String) (cnt3 : Nat)
            (n3 : Scanner.FileNode) (cnt4 : Nat),
            Scanner.buildTreeF fuel c cp (depth + 1) cnt3 = (some n3, cnt4) →
            n3.id = n3.path := by
          intro c cp cnt3 n3 cnt4 hr
          have hs := Scanner.buildTreeF_shape fuel c cp (depth + 1) cnt3 n3 cnt4 hr
          rw [hs.1, hs.2.1]
        obtain ⟨exp, dec, hsub, hch, hid, hos, hofc, hodc⟩ :=
          Scanner.buildLoop_split
            (fun c cp cnt3 => Scanner.buildTreeF fuel c cp (depth + 1) cnt3) depth hrec2
            (Scanner.childMetas t p) ⟨[], 0, 0, 0, 0, cnt + 1⟩
        set stf := (Scanner.childMetas t p).foldl
          (Scanner.buildStep
            (fun c cp cnt3 => Scanner.buildTreeF fuel c cp (depth + 1) cnt3) depth)
          ⟨[], 0, 0, 0, 0, cnt + 1⟩ with hstf
        have hchn : (Scanner.projectDir
            (fun c cp cnt3 => Scanner.buildTreeF fuel c cp (depth + 1) cnt3)
            t p depth (cnt + 1)).1.children = Scanner.finalChildren p stf := rfl
        have hch2 : stf.children = exp := by
          rw [hch]
          rfl
        have hofc2 : stf.other_file_count = (dec.filter (fun m => !m.1.is_dir)).length := by
          rw [hofc]
          simp
        have hodc2 : stf.other_dir_count = (dec.filter (fun m => m.1.is_dir)).length := by
          rw [hodc]
          simp
        have hos2 : stf.other_size = Scanner.sumMetaSizes dec := by
          rw [hos]
          simp
        refine ⟨exp, dec, hsub, hid, Scanner.length_filter_not_add dec _, ?_, ?_⟩
        · intro hdec
          subst hdec
          rw [hchn, Scanner.finalChildren]
          rw [if_neg (by simp [hofc2, hodc2]), hch2]
        · intro hdec
          rw [hchn, Scanner.finalChildren]
          have hpos : 0 < stf.other_file_count + stf.other_dir_count := by
            rw [hofc2, hodc2]
            have hlen := Scanner.length_filter_not_add dec (fun m => m.1.is_dir)
            have : dec.length ≠ 0 := by
              intro hz
              exact hdec (List.length_eq_zero.mp hz)
            omega
          rw [if_pos hpos, hch2, Scanner.overflowNode, hofc2, hodc2, hos2]

theorem synthetic_overflow_spec_witness :
    ∃ (exp : List Scanner.FileNode) (dec : List (Scanner.TempTree × String)),
      List.Sublist dec (Scanner.childMetas
        (Scanner.TempTree.mk "r" 0 true none none
          (some [.mk "a" 3 false none none none, .mk "b" 4 false none none none])) "/r") ∧
      (∀ c ∈ exp, c.id = c.path) ∧
      (dec.filter (fun m => !m.1.is_dir)).length +
        (dec.filter (fun m => m.1.is_dir)).length = dec.length ∧
      (dec = [] →
        (Scanner.FileNode.mk "/r" "r" "/r" 0 true
          [Scanner.FileNode.mk "/r/b" "b" "/r/b" 4 false [] none 0 0 none,
           Scanner.FileNode.mk "/r/a" "a" "/r/a" 3 false [] none 0 0 none]
          none 2 0 none).children = exp) ∧
      (dec ≠ [] →
        (Scanner.FileNode.mk "/r" "r" "/r" 0 true
          [Scanner.FileNode.mk "/r/b" "b" "/r/b" 4 false [] none 0 0 none,
           Scanner.FileNode.mk "/r/a" "a" "/r/a" 3 false [] none 0 0 none]
          none 2 0 none).children = exp ++
        [Scanner.FileNode.mk ("/r" ++ "/__other__")
          ("<" ++ toString ((dec.filter (fun m => !m.1.is_dir)).length +
            (dec.filter (fun m => m.1.is_dir)).length) ++ " more items>")
          "/r" (Scanner.sumMetaSizes dec) true [] none
          (dec.filter (fun m => !m.1.is_dir)).length
          (dec.filter (fun m => m.1.is_dir)).length none]) :=
  synthetic_overflow_spec 26
    (Scanner.TempTree.mk "r" 0 true none none
      (some [.mk "a" 3 false none none none, .mk "b" 4 false none none none]))
    "/r" 0 0
    (Scanner.FileNode.mk "/r" "r" "/r" 0 true
      [Scanner.FileNode.mk "/r/b" "b" "/r/b" 4 false [] none 0 0 none,
       Scanner.FileNode.mk "/r/a" "a" "/r/a" 3 false [] none 0 0 none]
      none 2 0 none)
    3 rfl rfl

set_option maxHeartbeats 1000000 in
/-- **C6 counterexample.** In the depth-26 chain projection the synthetic
overflow node's `id` is the parent path suffixed with `/__other__`, but its
`path` field equals the parent path, which does not end in `/__other__`. -/
theorem overflow_path_counterexample :
    (Scanner.descend 26 Scanner.chainProj).id =
      "/r/d24/d23/d22/d21/d20/d19/d18/d17/d16/d15/d14/d13/d12/d11/d10/d9/d8/d7/d6/d5/d4/d3/d2/d1/d0/__other__" ∧
    (Scanner.descend 26 Scanner.chainProj).path =
      "/r/d24/d23/d22/d21/d20/d19/d18/d17/d16/d15/d14/d13/d12/d11/d10/d9/d8/d7/d6/d5/d4/d3/d2/d1/d0" ∧
    (Scanner.descend 25 Scanner.chainProj).path =
      "/r/d24/d23/d22/d21/d20/d19/d18/d17/d16/d15/d14/d13/d12/d11/d10/d9/d8/d7/d6/d5/d4/d3/d2/d1/d0" ∧
    (∀ pre : String,
      ("/r/d24/d23/d22/d21/d20/d19/d18/d17/d16/d15/d14/d13/d12/d11/d10/d9/d8/d7/d6/d5/d4/d3/d2/d1/d0" :
        String) ≠ pre ++ "/__other__") ∧
    (Scanner.descend 26 Scanner.chainProj).is_dir = true ∧
    (Scanner.descend 26 Scanner.chainProj).name = "<1 more items>" ∧
    (Scanner.descend 26 Scanner.chainProj).children.length = 0 ∧
    (Scanner.descend 26 Scanner.chainProj).size = 5 := by
  refine ⟨rfl, rfl, rfl, ?_, rfl, rfl, rfl, rfl⟩
  intro pre h
  have hd := congrArg String.data h
  rw [String.data_append] at hd
  have h2 := congrArg (fun l => (l.reverse.take 10)) hd
  simp only [List.reverse_append] at h2
  rw [List.take_append_of_le_length (by simp)] at h2
  exact absurd h2 (by decide)

/-! ### C3: the snapshot-diff scenario -/

/-- **C3 counterexample.** On Scenario F's trees the comparator also reports
the root directory (300 → 650, Δ = +350) as changed, so `changed` has two
entries, `net_size_change` is +700 rather than +350, and `unchanged_count`
is 1 (only `a.txt`; the root is not unchanged).  This matches the
repository's own unit test `test_compare_changed_size`, which expects a
changed directory to be reported. -/
theorem snapshot_diff_counterexample :
    (Snapshot.compare_snapshots Snapshot.oldTreeF Snapshot.newTreeF "/test" 1000 2000).changed.length
        ≠ 1 ∧
    (Snapshot.compare_snapshots Snapshot.oldTreeF Snapshot.newTreeF "/test" 1000 2000).net_size_change
        ≠ 350 ∧
    (Snapshot.compare_snapshots Snapshot.oldTreeF Snapshot.newTreeF "/test" 1000 2000).unchanged_count
        ≠ 2 ∧
    ((Snapshot.compare_snapshots Snapshot.oldTreeF Snapshot.newTreeF "/test" 1000 2000).changed.map
        (fun c => c.path)).contains "root" = true := by
  decide

/-- **C3 (amended).** On Scenario F's trees, `compare_snapshots` reports
added = [c.txt (50)], removed = [], changed = [root: 300→650 Δ=+350,
b.txt: 200→500 Δ=+300] (the aggregated root directory is also a changed
entry, first in the |Δ|-descending order), added_size = 50,
removed_size = 0, net_size_change = +700, and unchanged_count = 1
(a.txt only — the root directory is changed, not unchanged). -/
theorem snapshot_diff_scenario :
    Snapshot.compare_snapshots Snapshot.oldTreeF Snapshot.newTreeF "/test" 1000 2000 =
      { scan_path := "/test", old_timestamp := 1000, new_timestamp := 2000,
        added := [⟨"root/c.txt", "c.txt", 50, false, 0⟩],
        removed := [],
        changed := [⟨"root", "root", 300, 650, 350, true⟩,
                    ⟨"root/b.txt", "b.txt", 200, 500, 300, false⟩],
        added_size := 50, removed_size := 0, net_size_change := 700,
        unchanged_count := 1 } := by
  decide

/-! ### C9: the cache size guard -/

/-- **C9.** `save_to_cache` serializes first and checks the 500 MiB limit
before touching the disk: when the serialized record exceeds
`MAX_CACHE_SIZE` it returns an error and the cache directory is left exactly
as it was (in particular any existing cache file for the path is unchanged);
otherwise it overwrites the single cache file for the path. -/
theorem cache_size_guard (fs : Cache.CacheFS) (p : String) (root : Scanner.FileNode)
    (now : Nat) :
    if Cache.cachedScanLen (Cache.mkCached p root now) > Cache.MAX_CACHE_SIZE then
      (Cache.save_to_cache fs p root now).1 = Except.error "Cache too large, skipping" ∧
      (Cache.save_to_cache fs p root now).2 = fs
    else
      (Cache.save_to_cache fs p root now).1 = Except.ok (Cache.cacheFileName p) ∧
      (Cache.save_to_cache fs p root now).2 =
        Cache.writeCacheFile fs (Cache.cacheFileName p) (Cache.mkCached p root now) := by
  by_cases hbig : Cache.cachedScanLen (Cache.mkCached p root now) > Cache.MAX_CACHE_SIZE
  · rw [if_pos hbig]
    simp only [Cache.save_to_cache]
    rw [if_pos hbig]
    exact ⟨rfl, rfl⟩
  · rw [if_neg hbig]
    simp only [Cache.save_to_cache]
    rw [if_neg hbig]
    exact ⟨rfl, rfl⟩

/-! ### C10: snapshot retention -/

namespace Cache

theorem insertNatDesc_perm (x : Nat) (l : List Nat) :
    List.Perm (insertNatDesc x l) (x :: l) := by
  induction l with
  | nil => exact List.Perm.refl _
  | cons y ys ih =>
      by_cases h : y ≤ x
      · rw [insertNatDesc, if_pos h]
      · rw [insertNatDesc, if_neg h]
        exact (List.Perm.cons y ih).trans (List.Perm.swap x y ys)

theorem sortNatDesc_perm (l : List Nat) : List.Perm (sortNatDesc l) l := by
  unfold sortNatDesc
  induction l with
  | nil => exact List.Perm.refl _
  | cons x xs ih =>
      rw [List.foldr_cons]
      exact (insertNatDesc_perm x _).trans (List.Perm.cons x ih)

theorem mem_sortNatDesc {t : Nat} {l : List Nat} : t ∈ sortNatDesc l ↔ t ∈ l :=
  (sortNatDesc_perm l).mem_iff

theorem nodup_sortNatDesc {l : List Nat} (h : l.Nodup) : (sortNatDesc l).Nodup :=
  ((sortNatDesc_perm l).nodup_iff).mpr h

/-- Folding `delete_snapshot` over a timestamp list filters out exactly the
files of the path's key whose timestamp is in the list. -/
theorem foldl_delete_eq (p : String) (D : List Nat) :
    ∀ st : SnapStore,
      D.foldl (fun st ts => delete_snapshot st p ts) st =
        st.filter (fun f =>
          !(f.key == path_to_cache_key p && D.contains f.timestamp)) := by
  induction D with
  | nil =>
      intro st
      simp [List.filter_true]
  | cons d ds ih =>
      intro st
      rw [List.foldl_cons, ih, delete_snapshot, List.filter_filter]
      apply List.filter_congr
      intro f _
      cases hk : (f.key == path_to_cache_key p)
      · simp [hk]
      · cases ht : (f.timestamp == d)
        · simp [hk, ht, List.contains_cons]
          intro _
          intro hh
          rw [hh] at ht
          simp at ht
        · simp [hk, ht, List.contains_cons]
          intro hh
          exact absurd (eq_of_beq ht) hh

theorem list_snapshots_eq (st : SnapStore) (p : String) :
    list_snapshots st p =
      sortNatDesc ((st.filter (goodFor p)).map (fun f => f.timestamp)) := rfl

theorem goodFor_key {p : String} {f : SnapFile} (h : goodFor p f = true) :
    f.key = path_to_cache_key p := by
  simp only [goodFor, Bool.and_eq_true, beq_iff_eq] at h
  exact h.1

theorem mem_listed {t : Nat} {st : SnapStore} {p : String} :
    t ∈ list_snapshots st p ↔ ∃ f ∈ st, goodFor p f = true ∧ f.timestamp = t := by
  rw [list_snapshots_eq, mem_sortNatDesc]
  constructor
  · intro h
    rcases List.mem_map.mp h with ⟨f, hf, hts⟩
    rcases List.mem_filter.mp hf with ⟨h1, h2⟩
    exact ⟨f, h1, h2, hts⟩
  · rintro ⟨f, h1, h2, h3⟩
    exact List.mem_map.mpr ⟨f, List.mem_filter.mpr ⟨h1, h2⟩, h3⟩

theorem nodup_ts_of_const_key (k : String) (l : List SnapFile) :
    (l.map (fun f => (f.key, f.timestamp))).Nodup →
    (∀ f ∈ l, f.key = k) →
    (l.map (fun f => f.timestamp)).Nodup := by
  induction l with
  | nil => intro _ _; exact List.nodup_nil
  | cons f fs ih =>
      intro hnd hkey
      simp only [List.map_cons, List.nodup_cons] at hnd ⊢
      refine ⟨?_, ih hnd.2 (fun g hg => hkey g (List.mem_cons_of_mem _ hg))⟩
      intro hmem
      rcases List.mem_map.mp hmem with ⟨g, hg, hts⟩
      apply hnd.1
      refine List.mem_map.mpr ⟨g, hg, ?_⟩
      rw [hkey g (List.mem_cons_of_mem _ hg), hkey f (List.mem_cons_self _ _), hts]

theorem pairs_nodup_filter (q : SnapFile → Bool) (st : SnapStore)
    (h : (st.map (fun f => (f.key, f.timestamp))).Nodup) :
    ((st.filter q).map (fun f => (f.key, f.timestamp))).Nodup :=
  List.Nodup.sublist (List.Sublist.map _ (List.filter_sublist _)) h

theorem pairs_nodup_write (store : SnapStore) (p : String) (now : Nat)
    (hwf : (store.map (fun f => (f.key, f.timestamp))).Nodup) :
    ((writeSnapshotFile store p now).map (fun f => (f.key, f.timestamp))).Nodup := by
  rw [writeSnapshotFile, List.map_append]
  apply List.Nodup.append
  · exact pairs_nodup_filter _ _ hwf
  · simp
  · intro a ha hb
    rcases List.mem_map.mp hb with ⟨g, hg, hpa⟩
    rcases List.mem_singleton.mp hg with rfl
    rcases List.mem_map.mp ha with ⟨f, hf, hpf⟩
    rcases List.mem_filter.mp hf with ⟨hstore, hcond⟩
    have hfa : (f.key, f.timestamp) = (path_to_cache_key p, now) := hpf.trans hpa.symm
    have hk : f.key = path_to_cache_key p := congrArg Prod.fst hfa
    have ht : f.timestamp = now := congrArg Prod.snd hfa
    simp [hk, ht] at hcond

theorem listed_nodup (p : String) (st : SnapStore)
    (h : (st.map (fun f => (f.key, f.timestamp))).Nodup) :
    ((st.filter (goodFor p)).map (fun f => f.timestamp)).Nodup := by
  apply nodup_ts_of_const_key (path_to_cache_key p)
  · exact pairs_nodup_filter _ _ h
  · intro f hf
    exact goodFor_key (List.mem_filter.mp hf).2

theorem nodup_list_snapshots (p : String) (st : SnapStore)
    (h : (st.map (fun f => (f.key, f.timestamp))).Nodup) :
    (list_snapshots st p).Nodup := by
  rw [list_snapshots_eq]
  exact nodup_sortNatDesc (listed_nodup p st h)

/-- A snapshot timestamp survives the batched deletion exactly when it was
listed before and is not on the deletion list. -/
theorem retained_iff (st : SnapStore) (p : String) (D : List Nat) (t : Nat) :
    t ∈ list_snapshots (st.filter (fun f =>
        !(f.key == path_to_cache_key p && D.contains f.timestamp))) p ↔
      (t ∈ list_snapshots st p ∧ t ∉ D) := by
  rw [mem_listed, mem_listed]
  constructor
  · rintro ⟨f, hf, hgood, hts⟩
    rcases List.mem_filter.mp hf with ⟨h1, hdel⟩
    refine ⟨⟨f, h1, hgood, hts⟩, ?_⟩
    intro hD
    simp [goodFor_key hgood, hts] at hdel
    exact hdel hD
  · rintro ⟨⟨f, h1, hgood, hts⟩, hnD⟩
    refine ⟨f, List.mem_filter.mpr ⟨h1, ?_⟩, hgood, hts⟩
    simp [goodFor_key hgood, hts]
    exact hnD

theorem mem_take_iff_of_nodup {l : List Nat} {n : Nat} (h : l.Nodup) (t : Nat) :
    t ∈ l.take n ↔ (t ∈ l ∧ t ∉ l.drop n) := by
  constructor
  · intro hT
    exact ⟨List.take_subset _ _ hT,
      fun hD => List.disjoint_take_drop h (le_refl n) hT hD⟩
  · rintro ⟨hs, hd⟩
    have hsplit := List.take_append_drop n l
    rw [← hsplit] at hs
    rcases List.mem_append.mp hs with h1 | h1
    · exact h1
    · exact absurd h1 hd

theorem length_le_of_nodup_subset {l1 l2 : List Nat} (h1 : l1.Nodup)
    (h2 : l1 ⊆ l2) : l1.length ≤ l2.length :=
  (h1.subperm h2).length_le

end Cache

/-- **C10.** After every successful `save_snapshot` for a scan path, at most
`MAX_SNAPSHOTS_PER_PATH` (= 10) snapshots are retained for that path: the
returned store is the freshly written store after the cleanup pass, the
cleanup leaves at most 10 listed snapshots for the path, and the retained
timestamps are exactly the first 10 of the newest-first listing taken right
after the write — the 10 most recent snapshots — older ones being silently
deleted. The store is assumed well-formed: no two snapshot files share both
key and timestamp. -/
theorem snapshot_retention (store : Cache.SnapStore) (p : String)
    (root : Scanner.FileNode) (now : Nat)
    (hwf : (store.map (fun f => (f.key, f.timestamp))).Nodup)
    (hok : ¬ Cache.cachedScanLen (Cache.mkCached p root now) > Cache.MAX_CACHE_SIZE) :
    Cache.save_snapshot store p root now =
      Except.ok (Cache.cleanup_old_snapshots (Cache.writeSnapshotFile store p now) p) ∧
    (Cache.list_snapshots
        (Cache.cleanup_old_snapshots (Cache.writeSnapshotFile store p now) p) p).length ≤
      Cache.MAX_SNAPSHOTS_PER_PATH ∧
    ∀ t, (t ∈ Cache.list_snapshots
        (Cache.cleanup_old_snapshots (Cache.writeSnapshotFile store p now) p) p ↔
      t ∈ (Cache.list_snapshots (Cache.writeSnapshotFile store p now) p).take
        Cache.MAX_SNAPSHOTS_PER_PATH) := by
  have hpairs := Cache.pairs_nodup_write store p now hwf
  refine ⟨?_, ?_⟩
  · simp only [Cache.save_snapshot]
    rw [if_neg hok]
  · by_cases hlen :
        (Cache.list_snapshots (Cache.writeSnapshotFile store p now) p).length >
          Cache.MAX_SNAPSHOTS_PER_PATH
    case neg =>
      have hcl : Cache.cleanup_old_snapshots (Cache.writeSnapshotFile store p now) p =
          Cache.writeSnapshotFile store p now := by
        simp only [Cache.cleanup_old_snapshots]
        rw [if_neg hlen]
      rw [hcl]
      refine ⟨Nat.le_of_not_lt hlen, fun t => ?_⟩
      rw [List.take_of_length_le (Nat.le_of_not_lt hlen)]
    case pos =>
      have hcl : Cache.cleanup_old_snapshots (Cache.writeSnapshotFile store p now) p =
          (Cache.writeSnapshotFile store p now).filter (fun f =>
            !(f.key == Cache.path_to_cache_key p &&
              ((Cache.list_snapshots (Cache.writeSnapshotFile store p now) p).drop
                Cache.MAX_SNAPSHOTS_PER_PATH).contains f.timestamp)) := by
        simp only [Cache.cleanup_old_snapshots]
        rw [if_pos hlen, Cache.foldl_delete_eq]
      rw [hcl]
      have hnd1 : (Cache.list_snapshots (Cache.writeSnapshotFile store p now) p).Nodup :=
        Cache.nodup_list_snapshots p _ hpairs
      have h2 : ∀ t, (t ∈ Cache.list_snapshots
          ((Cache.writeSnapshotFile store p now).filter (fun f =>
            !(f.key == Cache.path_to_cache_key p &&
              ((Cache.list_snapshots (Cache.writeSnapshotFile store p now) p).drop
                Cache.MAX_SNAPSHOTS_PER_PATH).contains f.timestamp))) p ↔
          t ∈ (Cache.list_snapshots (Cache.writeSnapshotFile store p now) p).take
            Cache.MAX_SNAPSHOTS_PER_PATH) :=
        fun t => (Cache.retained_iff (Cache.writeSnapshotFile store p now) p
            ((Cache.list_snapshots (Cache.writeSnapshotFile store p now) p).drop
              Cache.MAX_SNAPSHOTS_PER_PATH) t).trans
          ((Cache.mem_take_iff_of_nodup hnd1 t).symm)
      refine ⟨?_, h2⟩
      refine le_trans (Cache.length_le_of_nodup_subset ?_ (fun t ht => (h2 t).mp ht))
        (by rw [List.length_take]; exact min_le_left _ _)
      exact Cache.nodup_list_snapshots p _ (Cache.pairs_nodup_filter _ _ hpairs)

/-- Witness for `snapshot_retention`: the three-file example store is
well-formed and the default root node serializes below the cap, so the saved
store retains at most ten snapshots, exactly the newest ones. -/
theorem snapshot_retention_witness :
    ((Cache.exampleSnapStore.map (fun f => (f.key, f.timestamp))).Nodup) ∧
    (¬ Cache.cachedScanLen (Cache.mkCached "a" Scanner.defaultFileNode 5) >
        Cache.MAX_CACHE_SIZE) ∧
    (Cache.save_snapshot Cache.exampleSnapStore "a" Scanner.defaultFileNode 5 =
      Except.ok (Cache.cleanup_old_snapshots
        (Cache.writeSnapshotFile Cache.exampleSnapStore "a" 5) "a") ∧
    (Cache.list_snapshots
        (Cache.cleanup_old_snapshots
          (Cache.writeSnapshotFile Cache.exampleSnapStore "a" 5) "a") "a").length ≤
      Cache.MAX_SNAPSHOTS_PER_PATH ∧
    ∀ t, (t ∈ Cache.list_snapshots
        (Cache.cleanup_old_snapshots
          (Cache.writeSnapshotFile Cache.exampleSnapStore "a" 5) "a") "a" ↔
      t ∈ (Cache.list_snapshots
        (Cache.writeSnapshotFile Cache.exampleSnapStore "a" 5) "a").take
        Cache.MAX_SNAPSHOTS_PER_PATH)) :=
  ⟨by decide, by decide,
    snapshot_retention Cache.exampleSnapStore "a" Scanner.defaultFileNode 5
      (by decide) (by decide)⟩

/-! ### C2: hardlink accounting -/

namespace Scanner

theorem isK_inode {K : Nat × Nat} {e : Obs} (h : isK K e = true) :
    (obsSizeInode e).2 = some K := by
  simpa [isK] using h

theorem isK_false_inode {K : Nat × Nat} {e : Obs} (h : isK K e = false) :
    ¬ (obsSizeInode e).2 = some K := by
  intro hc
  simp [isK, hc] at h

theorem inode_not_dir {K : Nat × Nat} {e : Obs}
    (h : (obsSizeInode e).2 = some K) : e.is_dir = false := by
  by_cases hd : e.is_dir = true
  · simp [obsSizeInode, hd] at h
  · exact (Bool.not_eq_true _).mp hd

/- The callback, written out by control-flow case. -/
theorem walkStep_eq (st : WalkSt) (e : Obs) :
    walkStep st e =
      if e.is_dir then
        { st with
          dirs := st.dirs + 1,
          nodes := st.nodes ++ [(e.path, (obsSizeInode e).1)] }
      else
        match (obsSizeInode e).2 with
        | some key =>
            if key ∈ st.seen then
              { st with files := st.files + 1, nodes := st.nodes ++ [(e.path, 0)] }
            else
              { st with
                files := st.files + 1,
                seen := st.seen ++ [key],
                total := st.total + (obsSizeInode e).1,
                nodes := st.nodes ++ [(e.path, (obsSizeInode e).1)] }
        | none =>
            { st with
              files := st.files + 1,
              total := st.total + (obsSizeInode e).1,
              nodes := st.nodes ++ [(e.path, (obsSizeInode e).1)] } := by
  by_cases hd : e.is_dir = true
  · simp [walkStep, obsSizeInode, hd]
  · have hd2 : e.is_dir = false := (Bool.not_eq_true _).mp hd
    cases hm : (obsSizeInode e).2 with
    | none => simp [walkStep, hd2, hm]
    | some key =>
        by_cases hmem : key ∈ st.seen
        · simp [walkStep, hd2, hm, hmem]
        · simp [walkStep, hd2, hm, hmem]

theorem walkStep_seen (st : WalkSt) (e : Obs) :
    (walkStep st e).seen = stepSeen st.seen e := by
  rw [walkStep_eq]
  by_cases hd : e.is_dir = true
  · simp [stepSeen, obsSizeInode, hd]
  · have hd2 : e.is_dir = false := (Bool.not_eq_true _).mp hd
    cases hm : (obsSizeInode e).2 with
    | none => simp [stepSeen, hd2, hm]
    | some key =>
        by_cases hmem : key ∈ st.seen
        · simp [stepSeen, hd2, hm, hmem]
        · simp [stepSeen, hd2, hm, hmem]

theorem walkStep_nodes (st : WalkSt) (e : Obs) :
    (walkStep st e).nodes = st.nodes ++ [(e.path, storedOf st.seen e)] := by
  rw [walkStep_eq]
  by_cases hd : e.is_dir = true
  · simp [storedOf, hd]
  · have hd2 : e.is_dir = false := (Bool.not_eq_true _).mp hd
    cases hm : (obsSizeInode e).2 with
    | none => simp [storedOf, hd2, hm]
    | some key =>
        by_cases hmem : key ∈ st.seen
        · simp [storedOf, hd2, hm, hmem]
        · simp [storedOf, hd2, hm, hmem]

theorem mem_stepSeen {k : Nat × Nat} {seen : List (Nat × Nat)} {e : Obs} :
    k ∈ stepSeen seen e ↔
      (k ∈ seen ∨ (e.is_dir = false ∧ (obsSizeInode e).2 = some k)) := by
  by_cases hd : e.is_dir = true
  · simp [stepSeen, obsSizeInode, hd]
  · have hd2 : e.is_dir = false := (Bool.not_eq_true _).mp hd
    cases hm : (obsSizeInode e).2 with
    | none => simp [stepSeen, hd2, hm]
    | some key =>
        by_cases hmem : key ∈ seen
        · simp only [stepSeen, hd2, hm]
          rw [if_neg (by simp), if_pos hmem]
          constructor
          · exact Or.inl
          · rintro (h | ⟨-, hi⟩)
            · exact h
            · rcases Option.some.inj hi with rfl
              exact hmem
        · simp only [stepSeen, hd2, hm]
          rw [if_neg (by simp), if_neg hmem]
          simp only [List.mem_append, List.mem_singleton, Option.some.injEq,
            eq_self_iff_true, true_and]
          constructor
          · rintro (h | rfl)
            · exact Or.inl h
            · exact Or.inr rfl
          · rintro (h | rfl)
            · exact Or.inl h
            · exact Or.inr rfl

theorem foldl_nodes (entries : List Obs) :
    ∀ st : WalkSt,
      (entries.foldl walkStep st).nodes = st.nodes ++ nodesOf entries st.seen := by
  induction entries with
  | nil => intro st; simp [nodesOf]
  | cons e es ih =>
      intro st
      rw [List.foldl_cons, ih, walkStep_nodes, walkStep_seen]
      simp [nodesOf]

theorem foldl_seen_mem (K : Nat × Nat) (entries : List Obs) :
    ∀ st : WalkSt,
      K ∈ (entries.foldl walkStep st).seen ↔
        (K ∈ st.seen ∨ ∃ e ∈ entries, isK K e = true) := by
  induction entries with
  | nil => intro st; simp
  | cons e es ih =>
      intro st
      rw [List.foldl_cons, ih, walkStep_seen, mem_stepSeen]
      constructor
      · rintro ((h | ⟨hd, hi⟩) | ⟨f, hf, hKf⟩)
        · exact Or.inl h
        · exact Or.inr ⟨e, List.mem_cons_self _ _, by simp [isK, hi]⟩
        · exact Or.inr ⟨f, List.mem_cons_of_mem _ hf, hKf⟩
      · rintro (h | ⟨f, hf, hKf⟩)
        · exact Or.inl (Or.inl h)
        · rcases List.mem_cons.mp hf with rfl | hf2
          · exact Or.inl (Or.inr ⟨inode_not_dir (isK_inode hKf), isK_inode hKf⟩)
          · exact Or.inr ⟨f, hf2, hKf⟩

/- Running the walk beside a walk of the same entries with the K-inode paths
removed: memberships agree away from K, the filtered run never sees K, and
the totals differ by L exactly once K has been sighted. -/
theorem walk_dedup_total (K : Nat × Nat) (L : Nat) (entries : List Obs) :
    ∀ st st' : WalkSt,
      (∀ e ∈ entries, (obsSizeInode e).2 = some K → (obsSizeInode e).1 = L) →
      (∀ k : Nat × Nat, ¬ k = K → (k ∈ st.seen ↔ k ∈ st'.seen)) →
      K ∉ st'.seen →
      st.total = st'.total + (if K ∈ st.seen then L else 0) →
      (∀ k : Nat × Nat, ¬ k = K →
          (k ∈ (entries.foldl walkStep st).seen ↔
            k ∈ ((entries.filter (fun e => !(isK K e))).foldl walkStep st').seen)) ∧
      K ∉ ((entries.filter (fun e => !(isK K e))).foldl walkStep st').seen ∧
      (entries.foldl walkStep st).total =
        ((entries.filter (fun e => !(isK K e))).foldl walkStep st').total +
          (if K ∈ (entries.foldl walkStep st).seen then L else 0) := by
  induction entries with
  | nil =>
      intro st st' _ hiff hK htot
      exact ⟨hiff, hK, htot⟩
  | cons e es ih =>
      intro st st' hL hiff hK htot
      by_cases hKe : isK K e = true
      · have hfil : (e :: es).filter (fun e => !(isK K e)) =
            es.filter (fun e => !(isK K e)) := by
          simp [List.filter_cons, hKe]
        rw [hfil, List.foldl_cons]
        have hinode := isK_inode hKe
        have hdir := inode_not_dir hinode
        apply ih (walkStep st e) st' (fun f hf => hL f (List.mem_cons_of_mem _ hf))
        · intro k hk
          rw [walkStep_seen, mem_stepSeen]
          constructor
          · rintro (h | ⟨-, hi⟩)
            · exact (hiff k hk).mp h
            · rw [hinode] at hi
              exact absurd (Option.some.inj hi).symm hk
          · intro h
            exact Or.inl ((hiff k hk).mpr h)
        · exact hK
        · rw [walkStep_eq]
          simp only [hdir, Bool.false_eq_true, if_false, hinode]
          by_cases hmem : K ∈ st.seen
          · simp only [if_pos hmem]
            simpa [hmem] using htot
          · simp only [if_neg hmem]
            have hLe : (obsSizeInode e).1 = L := hL e (List.mem_cons_self _ _) hinode
            have hKin : K ∈ st.seen ++ [K] := by simp
            simp only [hLe]
            simp only [if_neg hmem] at htot
            simp [hKin, htot]
      · have hKe2 : isK K e = false := (Bool.not_eq_true _).mp hKe
        have hfil : (e :: es).filter (fun e => !(isK K e)) =
            e :: es.filter (fun e => !(isK K e)) := by
          simp [List.filter_cons, hKe2]
        rw [hfil, List.foldl_cons, List.foldl_cons]
        apply ih (walkStep st e) (walkStep st' e)
          (fun f hf => hL f (List.mem_cons_of_mem _ hf))
        · intro k hk
          rw [walkStep_seen, walkStep_seen, mem_stepSeen, mem_stepSeen]
          exact or_congr (hiff k hk) Iff.rfl
        · rw [walkStep_seen, mem_stepSeen]
          rintro (h | ⟨-, hi⟩)
          · exact hK h
          · exact isK_false_inode hKe2 hi
        · have hcond : (K ∈ (walkStep st e).seen) ↔ (K ∈ st.seen) := by
            rw [walkStep_seen, mem_stepSeen]
            constructor
            · rintro (h | ⟨-, hi⟩)
              · exact h
              · exact absurd hi (isK_false_inode hKe2)
            · exact Or.inl
          rw [if_congr hcond rfl rfl, walkStep_eq, walkStep_eq]
          by_cases hd : e.is_dir = true
          · simpa [hd] using htot
          · have hd2 : e.is_dir = false := (Bool.not_eq_true _).mp hd
            cases hm : (obsSizeInode e).2 with
            | none =>
                simp only [hd2, Bool.false_eq_true, if_false]
                by_cases hKs : K ∈ st.seen <;>
                  simp [hKs] at htot ⊢ <;> omega
            | some key =>
                have hkK : ¬ key = K := by
                  intro h
                  exact isK_false_inode hKe2 (h ▸ hm)
                have hmm : key ∈ st.seen ↔ key ∈ st'.seen := hiff key hkK
                simp only [hd2, Bool.false_eq_true, if_false]
                by_cases hmem : key ∈ st.seen
                · have hmem2 : key ∈ st'.seen := hmm.mp hmem
                  simp only [if_pos hmem, if_pos hmem2]
                  by_cases hKs : K ∈ st.seen <;>
                    simp [hKs] at htot ⊢ <;> omega
                · have hmem2 : key ∉ st'.seen := fun h => hmem (hmm.mpr h)
                  simp only [if_neg hmem, if_neg hmem2]
                  by_cases hKs : K ∈ st.seen <;>
                    simp [hKs] at htot ⊢ <;> omega

theorem map_fst_nodesOf (entries : List Obs) :
    ∀ seen, (nodesOf entries seen).map Prod.fst = entries.map Obs.path := by
  induction entries with
  | nil => intro seen; simp [nodesOf]
  | cons e es ih => intro seen; simp [nodesOf, ih]

/- Once the inode K is in the seen set, every K-path stores size 0. -/
theorem zip_nodesOf_dup (K : Nat × Nat) (entries : List Obs) :
    ∀ seen, K ∈ seen →
      ((entries.zip (nodesOf entries seen)).filter
          (fun q => isK K q.1)).map (fun q => q.2.2) =
        List.replicate ((entries.filter (isK K)).length) 0 := by
  induction entries with
  | nil => intro seen _; simp [nodesOf]
  | cons e es ih =>
      intro seen hKs
      have hKs2 : K ∈ stepSeen seen e := by
        rw [mem_stepSeen]; exact Or.inl hKs
      by_cases hKe : isK K e = true
      · have hinode := isK_inode hKe
        have hdir := inode_not_dir hinode
        have hstored : storedOf seen e = 0 := by
          simp [storedOf, hdir, hinode, hKs]
        simp [nodesOf, List.filter_cons, hKe, hstored,
          ih (stepSeen seen e) hKs2, List.replicate_succ]
      · simp [nodesOf, List.filter_cons, hKe, ih (stepSeen seen e) hKs2]

/- Before K has been seen, the first K-path stores the full length and the
later ones store 0. -/
theorem zip_nodesOf_first (K : Nat × Nat) (L : Nat) (entries : List Obs) :
    ∀ seen,
      (∀ e ∈ entries, (obsSizeInode e).2 = some K → (obsSizeInode e).1 = L) →
      K ∉ seen →
      1 ≤ (entries.filter (isK K)).length →
      ((entries.zip (nodesOf entries seen)).filter
          (fun q => isK K q.1)).map (fun q => q.2.2) =
        L :: List.replicate ((entries.filter (isK K)).length - 1) 0 := by
  induction entries with
  | nil => intro seen _ _ h1; simp at h1
  | cons e es ih =>
      intro seen hL hKs h1
      by_cases hKe : isK K e = true
      · have hinode := isK_inode hKe
        have hdir := inode_not_dir hinode
        have hstored : storedOf seen e = (obsSizeInode e).1 := by
          simp [storedOf, hdir, hinode, hKs]
        have hLe : (obsSizeInode e).1 = L := hL e (List.mem_cons_self _ _) hinode
        have hKs2 : K ∈ stepSeen seen e := by
          rw [mem_stepSeen]; exact Or.inr ⟨hdir, hinode⟩
        simp [nodesOf, List.filter_cons, hKe, hstored, hLe,
          zip_nodesOf_dup K es (stepSeen seen e) hKs2]
      · have hKe2 : isK K e = false := (Bool.not_eq_true _).mp hKe
        have hKs2 : K ∉ stepSeen seen e := by
          rw [mem_stepSeen]
          rintro (h | ⟨-, hi⟩)
          · exact hKs h
          · exact isK_false_inode hKe2 hi
        have h1b : 1 ≤ (es.filter (isK K)).length := by
          simpa [List.filter_cons, hKe2] using h1
        simp [nodesOf, List.filter_cons, hKe2,
          ih (stepSeen seen e) (fun f hf => hL f (List.mem_cons_of_mem _ hf)) hKs2 h1b]

end Scanner

/-- **C2.** During a single scan, for a family of `N ≥ 2` file paths sharing
one `(device, inode)` pair `K` of byte length `L`: the walk's cumulative
total exceeds the total of the same walk without those paths by exactly `L`
— the inode is counted exactly once; every walked path still gets an entry
in the node store (the stored paths are exactly the walked paths in order);
and the stored sizes of the `K`-linked entries are `L` for the first sighted
path and `0` for the other `N - 1`. -/
theorem hardlink_accounting (entries : List Scanner.Obs) (K : Nat × Nat) (L : Nat)
    (hL : ∀ e ∈ entries, (Scanner.obsSizeInode e).2 = some K →
      (Scanner.obsSizeInode e).1 = L)
    (hN : 2 ≤ (entries.filter (Scanner.isK K)).length) :
    (Scanner.scanWalk entries).total =
      (Scanner.scanWalk (entries.filter (fun e => !(Scanner.isK K e)))).total + L ∧
    (Scanner.scanWalk entries).nodes.map Prod.fst = entries.map Scanner.Obs.path ∧
    ((entries.zip (Scanner.scanWalk entries).nodes).filter
        (fun q => Scanner.isK K q.1)).map (fun q => q.2.2) =
      L :: List.replicate ((entries.filter (Scanner.isK K)).length - 1) 0 := by
  have hexists : ∃ e ∈ entries, Scanner.isK K e = true := by
    rcases List.exists_mem_of_length_pos
        (Nat.lt_of_lt_of_le Nat.zero_lt_two hN) with ⟨f, hf⟩
    exact ⟨f, List.mem_of_mem_filter hf, List.of_mem_filter hf⟩
  refine ⟨?_, ?_, ?_⟩
  · have hinv := Scanner.walk_dedup_total K L entries Scanner.initWalkSt
      Scanner.initWalkSt hL (fun k _ => Iff.rfl)
      (by simp [Scanner.initWalkSt]) (by simp [Scanner.initWalkSt])
    rcases hinv with ⟨-, -, htot⟩
    have hKfin : K ∈ (entries.foldl Scanner.walkStep Scanner.initWalkSt).seen := by
      rw [Scanner.foldl_seen_mem]
      exact Or.inr hexists
    simp only [Scanner.scanWalk]
    rw [htot, if_pos hKfin]
  · simp only [Scanner.scanWalk]
    rw [Scanner.foldl_nodes]
    simp [Scanner.initWalkSt, Scanner.map_fst_nodesOf]
  · simp only [Scanner.scanWalk]
    rw [Scanner.foldl_nodes]
    have h1 : 1 ≤ (entries.filter (Scanner.isK K)).length :=
      le_trans (by norm_num) hN
    have hz := Scanner.zip_nodesOf_first K L entries Scanner.initWalkSt.seen hL
      (by simp [Scanner.initWalkSt]) h1
    simpa [Scanner.initWalkSt] using hz

/-- Witness for `hardlink_accounting`: the four-entry walk with two paths
hardlinked to inode `(1, 7)` of length 100. -/
theorem hardlink_accounting_witness :
    (∀ e ∈ Scanner.hardlinkEntries,
        (Scanner.obsSizeInode e).2 = some (1, 7) →
        (Scanner.obsSizeInode e).1 = 100) ∧
    2 ≤ (Scanner.hardlinkEntries.filter (Scanner.isK (1, 7))).length ∧
    ((Scanner.scanWalk Scanner.hardlinkEntries).total =
      (Scanner.scanWalk (Scanner.hardlinkEntries.filter
        (fun e => !(Scanner.isK (1, 7) e)))).total + 100 ∧
    (Scanner.scanWalk Scanner.hardlinkEntries).nodes.map Prod.fst =
      Scanner.hardlinkEntries.map Scanner.Obs.path ∧
    ((Scanner.hardlinkEntries.zip
        (Scanner.scanWalk Scanner.hardlinkEntries).nodes).filter
        (fun q => Scanner.isK (1, 7) q.1)).map (fun q => q.2.2) =
      100 :: List.replicate
        ((Scanner.hardlinkEntries.filter (Scanner.isK (1, 7))).length - 1) 0) :=
  ⟨by decide, by decide,
    hardlink_accounting Scanner.hardlinkEntries (1, 7) 100 (by decide) (by decide)⟩

/-! ### C7: the incremental refresh trigger rule -/

/-- Counterexample to the claim's dichotomy: one dirty directory (`≤ 40`,
not the scan root), so the trigger rule elects targeted replacement — yet
the controller performs a full rescan, because the dirty directory is
missing from the current tree and its promotion to the parent lands on the
scan root. -/
theorem refresh_escalation_counterexample :
    (¬ ((["/r/d"] : List String).length > 40 ∨
        (["/r/d"] : List String).contains "/r" = true)) ∧
    Incremental.refreshAction (some Incremental.escalationTree) ["/r/d"] "/r" =
      Incremental.RefreshAction.fullRescan := by
  constructor
  · decide
  · decide

/-- **C7.** (amended) The debounced refresh decision: with no current tree
the controller always falls back to a full rescan; with a tree, it performs
a full rescan when the coalesced dirty list has more than 40 entries or
contains the scan root — and otherwise performs targeted subtree
replacement for the effective directories (dirty directories still present
in the tree, the missing ones promoted to their parents), except that it
still escalates to a full rescan when the promoted list reaches the scan
root. -/
theorem incremental_trigger_rule (tree : Option Scanner.FileNode)
    (dirty : List String) (root : String) :
    Incremental.refreshAction tree dirty root =
      match tree with
      | none => Incremental.RefreshAction.fullRescan
      | some t =>
          if dirty.length > 40 ∨ dirty.contains root = true then
            Incremental.RefreshAction.fullRescan
          else if (Incremental.effectiveDirs t dirty root).contains root then
            Incremental.RefreshAction.fullRescan
          else Incremental.RefreshAction.targeted
            (Incremental.effectiveDirs t dirty root) := by
  cases tree with
  | none => rfl
  | some t =>
      simp only [Incremental.refreshAction]
      by_cases h : dirty.length > 40 ∨ dirty.contains root = true
      · have hb : (decide (dirty.length > 40) || dirty.contains root) = true := by
          rcases h with h | h
          · simp [h]
          · rw [h]
            simp
        rw [if_pos hb, if_pos h]
      · rw [not_or] at h
        have h2 : dirty.contains root = false := (Bool.not_eq_true _).mp h.2
        have hb : (decide (dirty.length > 40) || dirty.contains root) = false := by
          rw [h2]
          simp [h.1]
        rw [if_neg (by rw [hb]; decide), if_neg (not_or.mpr h)]

/-! ### C8: cancellation safety -/

/-- Counterexample to "cancellation at any moment yields a null result and
persists nothing": over a two-entry store the last cancellation observation
point is the post-walk check at moment 2; a cancellation raised at moment 3
— while the size/tree phases of the still-running scan execute — is never
observed, so the command returns the full tree, stores it as the current
tree and hands it to the cache save. -/
theorem cancellation_counterexample :
    ∃ root,
      Scanner.scan (Scanner.mkChain 1) "d0" 2 0 (some 3) = some root ∧
      Scanner.scan_directory none (Scanner.mkChain 1) "d0" 2 0 (some 3) =
        (Except.ok (some root), some root, some root) :=
  ⟨_, rfl, rfl⟩

/-- **C8.** (amended) Whenever the cancellation is raised no later than one
of the scan's observation points (a walk callback, the post-walk check, or
a full phase-2 batch boundary — the last of which runs at moment
`numEntries + numFullBatches`), the scan returns `None`, and the command
returns `Ok(None)` — null, not an error — leaves the previous tree in
place, and persists nothing. A cancellation raised after the last
observation point is never seen: the scan completes and its tree is
persisted. -/
theorem cancellation_safety (prev : Option Scanner.FileNode)
    (t : Scanner.TempTree) (root_path : String)
    (numEntries numFullBatches c : Nat)
    (hc : c ≤ numEntries + numFullBatches) :
    Scanner.scan t root_path numEntries numFullBatches (some c) = none ∧
    Scanner.scan_directory prev t root_path numEntries numFullBatches (some c) =
      (Except.ok none, prev, none) := by
  have hnone : Scanner.scan t root_path numEntries numFullBatches (some c) = none := by
    simp only [Scanner.scan, Scanner.cancelledAt]
    by_cases h1 : c ≤ numEntries
    · rw [if_pos (by simpa using h1)]
    · rw [if_neg (by simpa using h1)]
      rw [if_pos ?hany]
      case hany =>
        refine List.any_eq_true.mpr ⟨c - numEntries - 1, List.mem_range.mpr (by omega), ?_⟩
        simp only [decide_eq_true_eq]
        omega
  refine ⟨hnone, ?_⟩
  simp only [Scanner.scan_directory, hnone]

/-- Witness for `cancellation_safety`: a cancellation raised at moment 1 of
the two-entry walk is observed, the scan yields `None` and the command
persists nothing. -/
theorem cancellation_safety_witness :
    1 ≤ 2 + 0 ∧
    (Scanner.scan (Scanner.mkChain 1) "d0" 2 0 (some 1) = none ∧
     Scanner.scan_directory none (Scanner.mkChain 1) "d0" 2 0 (some 1) =
       (Except.ok none, none, none)) :=
  ⟨by decide, cancellation_safety none (Scanner.mkChain 1) "d0" 2 0 1 (by decide)⟩
